import Mathlib

/-!
Shallow embedding of the NPuzzle repository (actions.py, helpers.py,
heuristics.py, search_strategies.py) and verification of its specification.

A puzzle state is a list of columns, each column a list of tile labels
(strings); the blank is the label "0".  Fallible Python code (IndexError,
ValueError, KeyError, AssertionError, queue.Empty) is embedded with
Option/Except.  The search loop, which Python runs until the frontier
empties, takes explicit fuel and returns none when the fuel runs out.
-/

abbrev State := List (List String)

/-! ## helpers.py -/

/-- Inner loop of helpers.coords_of_tile: index of the first occurrence of
`tile` in one column, counting from `y`. -/
def coordsInColumn (col : List String) (tile : String) (y : Nat) : Option Nat :=
  match col with
  | [] => none
  | t :: ts => if t = tile then some y else coordsInColumn ts tile (y + 1)

/-- Outer loop of helpers.coords_of_tile starting at column index `x`. -/
def coordsAux (cols : List (List String)) (tile : String) (x : Nat) :
    Option (Nat × Nat) :=
  match cols with
  | [] => none
  | c :: cs =>
    match coordsInColumn c tile 0 with
    | some y => some (x, y)
    | none => coordsAux cs tile (x + 1)

/-- helpers.coords_of_tile: coordinates of the first occurrence of
`tile` in `state`, scanning columns in order, then entries within a column.
Returns none where Python raises ValueError (tile absent). -/
def coords_of_tile (state : State) (tile : String) : Option (Nat × Nat) :=
  coordsAux state tile 0

/-! ## actions.py -/

/-- Read state[x][y] (both indices assumed in range at every use site). -/
def get2 (s : State) (x y : Nat) : String := (s.getD x []).getD y ""

/-- Write state[x][y] := v (List.set is a no-op out of range; all use sites
below stay in range for rectangular grids, where Python would also succeed). -/
def set2 (s : State) (x y : Nat) (v : String) : State :=
  s.set x ((s.getD x []).set y v)

/-- actions._move: slide the blank by the offset `tile_to_swap`.
Returns none when the target coordinates fall outside
range(len(state)) × range(len(state[0])), as in the source; also none when
the blank "0" is absent (Python raises ValueError inside coords_of_tile). -/
def _move (state : State) (tile_to_swap : Int × Int) : Option State :=
  match coords_of_tile state "0" with
  | none => none
  | some (x, y) =>
    let x2 : Int := (x : Int) + tile_to_swap.1
    let y2 : Int := (y : Int) + tile_to_swap.2
    if x2 < 0 ∨ (state.length : Int) ≤ x2 ∨ y2 < 0 ∨
        ((state.headD []).length : Int) ≤ y2 then
      none
    else
      let a := get2 state x y
      let b := get2 state x2.toNat y2.toNat
      some (set2 (set2 state x y b) x2.toNat y2.toNat a)

def up (state : State) : Option State := _move state (0, -1)

def left (state : State) : Option State := _move state (-1, 0)

def down (state : State) : Option State := _move state (0, 1)

def right (state : State) : Option State := _move state (1, 0)

/-! ## heuristics.py -/

/-- One column of heuristics.number_of_misplaced_tiles: compares the entries
of a column of current_state with the same positions of desired_state;
none where Python raises IndexError (desired column too short). -/
def misplacedCol (col dcol : List String) : Option Nat :=
  match col, dcol with
  | [], _ => some 0
  | _ :: _, [] => none
  | t :: ts, d :: ds =>
    (misplacedCol ts ds).map (fun m => (if t ≠ d then 1 else 0) + m)

/-- Column recursion of heuristics.number_of_misplaced_tiles. -/
def misplacedCols (cur des : List (List String)) : Option Nat :=
  match cur, des with
  | [], _ => some 0
  | _ :: _, [] => none
  | c :: cs, d :: ds => do
    let m ← misplacedCol c d
    let r ← misplacedCols cs ds
    pure (m + r)

/-- heuristics.number_of_misplaced_tiles. -/
def number_of_misplaced_tiles (current_state desired_state : State) :
    Option Nat :=
  misplacedCols current_state desired_state

/-- |a - b| on naturals, as Python's abs of an int difference. -/
def natDist (a b : Nat) : Nat := ((a : Int) - (b : Int)).natAbs

/-- One summand of heuristics.manhattan_distance. -/
def tileDistance (cur des : State) (tile : String) : Option Nat := do
  let c ← coords_of_tile cur tile
  let d ← coords_of_tile des tile
  pure (natDist c.1 d.1 + natDist c.2 d.2)

/-- Sum of tileDistance over a list of tiles. -/
def manhattanList (cur des : State) : List String → Option Nat
  | [] => some 0
  | t :: ts => do
    let a ← tileDistance cur des t
    let r ← manhattanList cur des ts
    pure (a + r)

/-- heuristics.manhattan_distance: sums the distance of every tile of
current_state (the blank included) between its first occurrence in
current_state and in desired_state; none where Python raises ValueError
(a tile missing from one of the states). -/
def manhattan_distance (current_state desired_state : State) : Option Nat :=
  manhattanList current_state desired_state current_state.flatten

/-- Total wrapper around manhattan_distance as plugged into the searches.
When a tile of `s` is missing from `g` Python raises inside the search;
that case is unreachable for the well-formed instances the theorems below
consider, where the wrapper agrees with manhattan_distance. -/
def manhattanH (s g : State) : Nat := (manhattan_distance s g).getD 0

/-! ## search_strategies.py: Node and the generic loop -/

/-- search_strategies.Node: state, optional parent, optional action label.
The source creates exactly two shapes: the root (parent and action None) and
children (both present), which the two constructors mirror.  num_parents is
recomputed rather than stored. -/
inductive Node where
  | root (state : State)
  | child (state : State) (parent : Node) (action_taken : String)
deriving DecidableEq

def Node.state : Node → State
  | .root s => s
  | .child s _ _ => s

def Node.num_parents : Node → Nat
  | .root _ => 0
  | .child _ p _ => p.num_parents + 1

/-- _search.reconstruct_actions: walk parent links from `node` to the root,
appending each action label as it is met.  The list is NOT reversed: its head
is the action into `node` (the last move), its last entry the first move. -/
def reconstruct_actions : Node → List String
  | .root _ => []
  | .child _ p a => a :: reconstruct_actions p

/-- Python's `<` on characters: comparison of code points. -/
def charLt (a b : Char) : Bool := a.val.toNat < b.val.toNat

/-- Python's `<` on strings: lexicographic comparison of code points. -/
def strLtAux : List Char → List Char → Bool
  | _, [] => false
  | [], _ :: _ => true
  | a :: as, b :: bs =>
    if charLt a b then true else if charLt b a then false else strLtAux as bs

def strLt (a b : String) : Bool := strLtAux a.data b.data

/-- Lexicographic Bool comparison of two columns (Python list-of-str `<`). -/
def ltColumn : List String → List String → Bool
  | _, [] => false
  | [], _ :: _ => true
  | a :: as, b :: bs =>
    if strLt a b then true else if strLt b a then false else ltColumn as bs

/-- Lexicographic Bool comparison of two states (Python list-of-list `<`). -/
def ltState : State → State → Bool
  | _, [] => false
  | [], _ :: _ => true
  | a :: as, b :: bs =>
    if ltColumn a b then true
    else if ltColumn b a then false
    else ltState as bs

/-- bisect.insort on the closed set: insert `s` into a sorted list, after any
entries not greater than it, keeping sorted order. -/
def insort (s : State) : List State → List State
  | [] => [s]
  | t :: ts => if ltState s t then s :: t :: ts else t :: insort s ts

/-- search_strategies._state_is_valid.  The source tests membership of the
closed set with a binary search (_bisect_index) over the list kept sorted by
insort; under the total lexicographic order that test answers exactly list
membership, which is what we embed. -/
def _state_is_valid (state : Option State) (closed_set : List State) : Bool :=
  match state with
  | none => false
  | some s => decide (s ∉ closed_set)

/-- _search.open_set_add_if_new: guardedly wrap a successor state into a
child Node and hand it to the strategy's open_set_add. -/
def open_set_add_if_new {F : Type} (fadd : Node → F → F)
    (closed_set : List State) (current_node : Node) (f : F)
    (successor_state : Option State) (action_taken : String) : F :=
  if _state_is_valid successor_state closed_set then
    fadd (Node.child (successor_state.getD []) current_node action_taken) f
  else f

/-- The four successor insertions of one expansion, in the fixed source
order Up, Left, Down, Right. -/
def addSuccessors {F : Type} (fadd : Node → F → F) (closed_set : List State)
    (current_node : Node) (f : F) : F :=
  open_set_add_if_new fadd closed_set current_node
    (open_set_add_if_new fadd closed_set current_node
      (open_set_add_if_new fadd closed_set current_node
        (open_set_add_if_new fadd closed_set current_node f
          (up current_node.state) "Up;")
        (left current_node.state) "Left;")
      (down current_node.state) "Down;")
    (right current_node.state) "Right;"

/-- The while loop of search_strategies._search, with explicit fuel.
Returns the closed set itself (the source returns only its length) together
with the optional action list; none when the fuel runs out.  `fget` returning
none models the IndexError/Empty exception of an empty frontier. -/
def searchLoop {F : Type} (fget : F → Option (Node × F)) (fadd : Node → F → F)
    (desired_state : State) :
    Nat → Node → List State → F → Option (List State × Option (List String))
  | 0, _, _, _ => none
  | fuel + 1, current_node, closed_set, f =>
    if current_node.state = desired_state then
      some (closed_set, some (reconstruct_actions current_node))
    else
      match fget (addSuccessors fadd (insort current_node.state closed_set)
          current_node f) with
      | none => some (insort current_node.state closed_set, none)
      | some (n, f') =>
        searchLoop fget fadd desired_state fuel n
          (insort current_node.state closed_set) f'

/-- search_strategies._search, but returning the closed set in place of its
length. -/
def _searchFull {F : Type} (initial_state desired_state : State)
    (fget : F → Option (Node × F)) (fadd : Node → F → F) (f0 : F)
    (fuel : Nat) : Option (List State × Option (List String)) :=
  searchLoop fget fadd desired_state fuel (Node.root initial_state) [] f0

/-- search_strategies._search: (len(closed_set), actions or None). -/
def _search {F : Type} (initial_state desired_state : State)
    (fget : F → Option (Node × F)) (fadd : Node → F → F) (f0 : F)
    (fuel : Nat) : Option (Nat × Option (List String)) :=
  (_searchFull initial_state desired_state fget fadd f0 fuel).map
    (fun r => (r.1.length, r.2))

/-! ## search_strategies.py: the seven frontier disciplines -/

/-- Python list.pop() on a stack of Nodes: pop the last element; none on an
empty list (IndexError). -/
def listPop (l : List Node) : Option (Node × List Node) :=
  match l.getLast? with
  | none => none
  | some n => some (n, l.dropLast)

/-- Python list.append / deque.append: add at the right end. -/
def listAppend (n : Node) (l : List Node) : List Node := l ++ [n]

/-- deque.popleft: pop the first element; none on an empty deque. -/
def dequePopLeft (l : List Node) : Option (Node × List Node) :=
  match l with
  | [] => none
  | n :: ns => some (n, ns)

def depth_first (initial_state desired_state : State) (fuel : Nat) :
    Option (Nat × Option (List String)) :=
  _search initial_state desired_state listPop listAppend [] fuel

def breadth_first (initial_state desired_state : State) (fuel : Nat) :
    Option (Nat × Option (List String)) :=
  _search initial_state desired_state dequePopLeft listAppend [] fuel

/-- An entry of the PriorityQueue heap: (priority, Node). -/
abbrev Entry := Nat × Node

/-- Python tuple comparison on (priority, node) entries: Node.__lt__ always
returns False, so (p1, n1) < (p2, n2) reduces to p1 < p2. -/
def entryLt (a b : Entry) : Bool := a.1 < b.1

/-- heap[i]; every use site below stays in range, as in heapq. -/
def heapGet (h : List Entry) (i : Nat) : Entry := h.getD i (0, Node.root [])

/-- The while loop of heapq._siftdown (bubble the new item toward the root).
`pos` strictly decreases, so fuel `pos` runs the loop to completion. -/
def siftdownLoop : Nat → List Entry → Entry → Nat → Nat → List Entry
  | 0, heap, newitem, _, pos => heap.set pos newitem
  | fuel + 1, heap, newitem, startpos, pos =>
    if startpos < pos then
      if entryLt newitem (heapGet heap ((pos - 1) / 2)) then
        siftdownLoop fuel (heap.set pos (heapGet heap ((pos - 1) / 2)))
          newitem startpos ((pos - 1) / 2)
      else heap.set pos newitem
    else heap.set pos newitem

/-- heapq._siftdown. -/
def _siftdown (heap : List Entry) (startpos pos : Nat) : List Entry :=
  siftdownLoop pos heap (heapGet heap pos) startpos pos

/-- The child the _siftup loop body selects: the right child 2*pos+2 when it
exists and the left child does not compare strictly below it, the left child
2*pos+1 otherwise. -/
def pickChild (heap : List Entry) (endpos pos : Nat) : Nat :=
  if 2 * pos + 2 < endpos ∧
      ¬ entryLt (heapGet heap (2 * pos + 1)) (heapGet heap (2 * pos + 2)) then
    2 * pos + 2
  else 2 * pos + 1

/-- The while loop of heapq._siftup (move the hole at `pos` down to a leaf,
always toward the chosen child); returns the heap and the final hole
position.  `pos` at least doubles each step, so fuel `endpos` suffices. -/
def siftupLoop : Nat → List Entry → Nat → Nat → List Entry × Nat
  | 0, heap, _, pos => (heap, pos)
  | fuel + 1, heap, endpos, pos =>
    if 2 * pos + 1 < endpos then
      siftupLoop fuel (heap.set pos (heapGet heap (pickChild heap endpos pos)))
        endpos (pickChild heap endpos pos)
    else (heap, pos)

/-- heapq._siftup. -/
def _siftup (heap : List Entry) (pos : Nat) : List Entry :=
  _siftdown
    ((siftupLoop heap.length heap heap.length pos).1.set
      (siftupLoop heap.length heap heap.length pos).2 (heapGet heap pos))
    pos (siftupLoop heap.length heap heap.length pos).2

/-- heapq.heappush: append, then sift the new last element down toward the
root. -/
def heappush (heap : List Entry) (item : Entry) : List Entry :=
  _siftdown (heap ++ [item]) 0 heap.length

/-- heapq.heappop: none on an empty heap (PriorityQueue.get_nowait raises
Empty); otherwise pop the last element, and if the heap is still nonempty
return the root after reseating the last element via _siftup. -/
def heappop (heap : List Entry) : Option (Entry × List Entry) :=
  match heap.getLast? with
  | none => none
  | some lastelt =>
    if heap.dropLast.isEmpty then some (lastelt, heap.dropLast)
    else
      some (heapGet heap.dropLast 0, _siftup (heap.dropLast.set 0 lastelt) 0)

/-- PriorityQueue.get_nowait, dropping the priority as the strategies do. -/
def pqGet (h : List Entry) : Option (Node × List Entry) :=
  (heappop h).map (fun r => (r.1.2, r.2))

/-- PriorityQueue.put of (priority node, node). -/
def pqAddWith (priority : Node → Nat) (n : Node) (h : List Entry) :
    List Entry :=
  heappush h (priority n, n)

def greedy_best_first (initial_state desired_state : State)
    (heuristic : State → State → Nat) (fuel : Nat) :
    Option (Nat × Option (List String)) :=
  _search initial_state desired_state pqGet
    (pqAddWith (fun n => heuristic n.state desired_state)) [] fuel

def a_star (initial_state desired_state : State)
    (heuristic : State → State → Nat) (fuel : Nat) :
    Option (Nat × Option (List String)) :=
  _search initial_state desired_state pqGet
    (pqAddWith (fun n => n.num_parents + heuristic n.state desired_state))
    [] fuel

/-- dijkstra: literally a_star with the all-zero heuristic, as in the
source. -/
def dijkstra (initial_state desired_state : State) (fuel : Nat) :
    Option (Nat × Option (List String)) :=
  a_star initial_state desired_state (fun _ _ => 0) fuel

/-- The three mutable locals of depth_limited. -/
structure DLState where
  open_set : List Node
  paused_set : List Node
  iteration : Nat
deriving DecidableEq

/-- depth_limited.open_set_add with max_depth = 3 as in the source. -/
def dlAdd (n : Node) (s : DLState) : DLState :=
  if n.num_parents < 3 * s.iteration then
    { s with open_set := s.open_set ++ [n] }
  else
    { s with paused_set := s.paused_set ++ [n] }

/-- depth_limited.open_set_get: when the active stack is empty, swap in the
paused set and bump the iteration; then pop the stack (none = IndexError). -/
def dlGet (s : DLState) : Option (Node × DLState) :=
  match (if s.open_set.isEmpty then s.paused_set else s.open_set).getLast? with
  | none => none
  | some n =>
    some (n,
      ⟨(if s.open_set.isEmpty then s.paused_set else s.open_set).dropLast,
        if s.open_set.isEmpty then ([] : List Node) else s.paused_set,
        if s.open_set.isEmpty then s.iteration + 1 else s.iteration⟩)

def depth_limited (initial_state desired_state : State) (fuel : Nat) :
    Option (Nat × Option (List String)) :=
  _search initial_state desired_state dlGet dlAdd ⟨[], [], 1⟩ fuel

/-- hill_climb.open_set_add with an explicit backtracking tolerance.
Every node the generic loop enqueues is a child; on a root Python would
raise (current_priority unbound in the put), so the root case returns the
frontier unchanged and is unreachable. -/
def hcAdd (heuristic : State → State → Nat) (desired_state : State)
    (backtracking_allowed : Nat) (n : Node) (h : List Entry) : List Entry :=
  match n with
  | .root _ => h
  | .child s p a =>
    if p.num_parents + 1 + heuristic s desired_state
        > p.num_parents + heuristic p.state desired_state
          + backtracking_allowed then
      h
    else
      heappush h
        (p.num_parents + 1 + heuristic s desired_state, Node.child s p a)

/-- hill_climb with the tolerance as a parameter (the source fixes 2). -/
def hill_climb_tol (backtracking_allowed : Nat)
    (initial_state desired_state : State)
    (heuristic : State → State → Nat) (fuel : Nat) :
    Option (Nat × Option (List String)) :=
  _search initial_state desired_state pqGet
    (hcAdd heuristic desired_state backtracking_allowed) [] fuel

def hill_climb (initial_state desired_state : State)
    (heuristic : State → State → Nat) (fuel : Nat) :
    Option (Nat × Option (List String)) :=
  hill_climb_tol 2 initial_state desired_state heuristic fuel

/-! ## search_strategies.strategy_by_name -/

inductive Strategy where
  | DFS | BFS | GBFS | AS | DIJ | DL | HC
deriving DecidableEq

/-- Run a strategy with the default heuristic arguments, as main.py does. -/
def run_strategy : Strategy → State → State → Nat →
    Option (Nat × Option (List String))
  | .DFS, i, g, fuel => depth_first i g fuel
  | .BFS, i, g, fuel => breadth_first i g fuel
  | .GBFS, i, g, fuel => greedy_best_first i g manhattanH fuel
  | .AS, i, g, fuel => a_star i g manhattanH fuel
  | .DIJ, i, g, fuel => dijkstra i g fuel
  | .DL, i, g, fuel => depth_limited i g fuel
  | .HC, i, g, fuel => hill_climb i g manhattanH fuel

/-- The methods dict of strategy_by_name, in source order. -/
def methods : List (String × Strategy) :=
  [("DFS", .DFS), ("BFS", .BFS), ("GBFS", .GBFS), ("AS", .AS),
   ("DIJ", .DIJ), ("DL", .DL), ("HC", .HC)]

/-- Stable insertion into a ≤-sorted list of strings (via the strict order;
the keys are distinct, matching Python's sorted on distinct strings). -/
def strInsert (s : String) : List String → List String
  | [] => [s]
  | t :: ts => if strLt s t then s :: t :: ts else t :: strInsert s ts

def strSort : List String → List String
  | [] => []
  | s :: ss => strInsert s (strSort ss)

/-- strategy_by_name.available_strategies:
str(sorted(list(methods.keys())))[1:-1].replace(quote, empty) amounts to the
sorted keys joined by a comma and a space. -/
def available_strategies : String :=
  String.intercalate ", " (strSort (methods.map Prod.fst))

/-- Python str.upper on one character (ASCII range, which covers the
strategy codes). -/
def charUpper (c : Char) : Char :=
  if 97 ≤ c.val.toNat ∧ c.val.toNat ≤ 122 then Char.ofNat (c.val.toNat - 32)
  else c

/-- Python str.upper (ASCII range). -/
def strUpper (s : String) : String := String.mk (s.data.map charUpper)

/-- search_strategies.strategy_by_name.  The assert tests the raw `name`
against the dict; the lookup then uses name.upper().  AssertionError and
KeyError are embedded as Except.error (the KeyError branch is unreachable:
a name that is itself a key is already uppercase). -/
def strategy_by_name (name : String) : Except String Strategy :=
  match (methods.lookup name : Option Strategy) with
  | none =>
    Except.error ("Search strategy '" ++ name ++
      "' is not implemented. Available: " ++ available_strategies)
  | some _ =>
    match (methods.lookup (strUpper name) : Option Strategy) with
    | some s => Except.ok s
    | none => Except.error "KeyError"

/-! ## Replay of an action sequence with the Move Generator -/

/-- Interpret one action label as the move it names. -/
def apply_action (state : State) (action : String) : Option State :=
  if action = "Up;" then up state
  else if action = "Left;" then left state
  else if action = "Down;" then down state
  else if action = "Right;" then right state
  else none

/-- Replay a list of action labels in order from `state`. -/
def replay (state : State) : List String → Option State
  | [] => some state
  | a :: as =>
    match apply_action state a with
    | none => none
    | some s => replay s as

/-! # Basic facts about the embedding -/

theorem coordsInColumn_mem {col : List String} {t : String} (h : t ∈ col)
    (y0 : Nat) : ∃ y, coordsInColumn col t y0 = some y := by
  induction col generalizing y0 with
  | nil => cases h
  | cons c cs ih =>
    by_cases hc : c = t
    · exact ⟨y0, by simp [coordsInColumn, hc]⟩
    · have hm : t ∈ cs := by
        rcases List.mem_cons.mp h with h | h
        · exact absurd h.symm hc
        · exact h
      obtain ⟨y, hy⟩ := ih hm (y0 + 1)
      exact ⟨y, by simp [coordsInColumn, hc, hy]⟩

theorem coordsAux_mem {s : List (List String)} {t : String}
    (h : t ∈ s.flatten) (x0 : Nat) : ∃ p, coordsAux s t x0 = some p := by
  induction s generalizing x0 with
  | nil => simp at h
  | cons c cs ih =>
    rw [List.flatten_cons] at h
    rcases List.mem_append.mp h with h | h
    · obtain ⟨y, hy⟩ := coordsInColumn_mem h 0
      exact ⟨(x0, y), by simp [coordsAux, hy]⟩
    · cases hcc : coordsInColumn c t 0 with
      | some y => exact ⟨(x0, y), by simp [coordsAux, hcc]⟩
      | none =>
        obtain ⟨p, hp⟩ := ih h (x0 + 1)
        exact ⟨p, by simp [coordsAux, hcc, hp]⟩

theorem coords_of_tile_mem {s : State} {t : String} (h : t ∈ s.flatten) :
    ∃ p, coords_of_tile s t = some p :=
  coordsAux_mem h 0

theorem tileDistance_self {s : State} {t : String} (h : t ∈ s.flatten) :
    tileDistance s s t = some 0 := by
  obtain ⟨p, hp⟩ := coords_of_tile_mem h
  simp [tileDistance, hp, natDist]

theorem manhattanList_self {s : State} {l : List String}
    (hl : ∀ t ∈ l, t ∈ s.flatten) : manhattanList s s l = some 0 := by
  induction l with
  | nil => rfl
  | cons t ts ih =>
    have h1 := tileDistance_self (hl t (by simp))
    have h2 := ih (fun u hu => hl u (by simp [hu]))
    simp [manhattanList, h1, h2]

theorem misplacedCol_self (c : List String) : misplacedCol c c = some 0 := by
  induction c with
  | nil => rfl
  | cons t ts ih => simp [misplacedCol, ih]

theorem misplacedCols_self (s : List (List String)) :
    misplacedCols s s = some 0 := by
  induction s with
  | nil => rfl
  | cons c cs ih => simp [misplacedCols, misplacedCol_self, ih]

/-! # Claim C4 -/

/-- C4 counterexample: on the solvable 1×2 instance [["0","1"]] → [["1","0"]]
a single Down move already solves the puzzle, yet both heuristics return 2;
each thus exceeds the true optimal move count (1), refuting the
admissibility half of the claim. -/
theorem claim_C4_counterexample :
    replay [["0", "1"]] ["Down;"] = some [["1", "0"]]
    ∧ number_of_misplaced_tiles [["0", "1"]] [["1", "0"]] = some 2
    ∧ manhattan_distance [["0", "1"]] [["1", "0"]] = some 2 :=
  ⟨by rfl, by rfl, by rfl⟩

/-- C4 (amended): number_of_misplaced_tiles and manhattan_distance return 0
whenever current_state equals desired_state; admissibility however fails:
both heuristics also score the blank, and on a solvable pair the value can
exceed the true optimal move count. -/
theorem claim_C4 :
    (∀ s : State, number_of_misplaced_tiles s s = some 0
      ∧ manhattan_distance s s = some 0)
    ∧ (∃ i g : State, ∃ acts : List String,
        replay i acts = some g
        ∧ acts.length < (number_of_misplaced_tiles i g).getD 0
        ∧ acts.length < (manhattan_distance i g).getD 0) := by
  constructor
  · intro s
    exact ⟨misplacedCols_self s, manhattanList_self (fun t ht => ht)⟩
  · exact ⟨[["0", "1"]], [["1", "0"]], ["Down;"], by rfl, by decide, by decide⟩

/-! # Claim C7 -/

/-- C7: strategy selection is NOT case-insensitive: the lowercase name "dfs"
trips the assert (which tests the raw name against the dict, although the
lookup just after upper-cases it) and fails with the configuration error;
the exact key "DFS" selects depth-first.  The error message does list the
seven codes in alphabetical order. -/
theorem claim_C7 :
    strategy_by_name "dfs"
      = Except.error ("Search strategy 'dfs' is not implemented. " ++
          "Available: AS, BFS, DFS, DIJ, DL, GBFS, HC")
    ∧ strategy_by_name "DFS" = Except.ok Strategy.DFS :=
  ⟨by rfl, by rfl⟩

/-! # Claim C9 -/

/-- C9: on an instance whose initial state equals the goal state, every one
of the seven strategies returns expanded count 0 and the empty action
sequence: the loop exits before any expansion. -/
theorem claim_C9 (st : Strategy) (s : State) (fuel : Nat) (h : 0 < fuel) :
    run_strategy st s s fuel = some (0, some []) := by
  obtain ⟨k, rfl⟩ : ∃ k, fuel = k + 1 :=
    ⟨fuel - 1, (Nat.succ_pred_eq_of_pos h).symm⟩
  cases st <;>
    simp [run_strategy, depth_first, breadth_first, greedy_best_first, a_star,
      dijkstra, depth_limited, hill_climb, hill_climb_tol, _search,
      _searchFull, searchLoop, Node.state, reconstruct_actions]

/-- C9 witness: a concrete 1×1 instance with fuel 1. -/
theorem claim_C9_witness :
    0 < 1 ∧ run_strategy Strategy.BFS [["0"]] [["0"]] 1 = some (0, some []) :=
  ⟨Nat.one_pos, claim_C9 Strategy.BFS [["0"]] 1 Nat.one_pos⟩

/-! # Concrete counterexample runs for C1, C2, C6, C8, C3 -/

/-- C1 counterexample: on this 2×2 instance breadth_first returns the action
list ["Down;", "Right;"]; replayed IN ORDER from the initial state it reaches
[["2","3"],["1","0"]], which is not the goal state: the returned sequence is
ordered from goal to initial (reconstruct_actions never reverses it). -/
theorem claim_C1_counterexample :
    breadth_first [["0", "2"], ["1", "3"]] [["1", "2"], ["3", "0"]] 100
      = some (4, some ["Down;", "Right;"])
    ∧ replay [["0", "2"], ["1", "3"]] ["Down;", "Right;"]
      = some [["2", "3"], ["1", "0"]]
    ∧ ([["2", "3"], ["1", "0"]] : State) ≠ [["1", "2"], ["3", "0"]] :=
  ⟨by rfl, by rfl, by decide⟩

/-- C2 counterexample: the same run returns the label "Down;", which is not
one of the four bare labels: every returned label carries the ";" display
separator inside the string itself. -/
theorem claim_C2_counterexample :
    breadth_first [["0", "2"], ["1", "3"]] [["1", "2"], ["3", "0"]] 100
      = some (4, some ["Down;", "Right;"])
    ∧ "Down;" ∉ (["Up", "Left", "Down", "Right"] : List String) :=
  ⟨by rfl, by decide⟩

/-- C6 counterexample: breadth-first on this unsolvable 2×2 instance expands
13 nodes but only 12 distinct states: the state antipodal to the start on
the 2×2 cycle is enqueued twice before its first expansion and is expanded
twice, so the closed set ends up with a duplicate entry. -/
theorem claim_C6_counterexample :
    (_searchFull [["0", "2"], ["1", "3"]] [["1", "0"], ["2", "3"]]
        dequePopLeft listAppend [] 100).map
      (fun r => (r.1.length, r.1.dedup.length, decide r.1.Nodup, r.2))
      = some (13, 12, false, none) := by rfl

/-- C8 counterexample: with the source tolerance 2 (the heuristic's maximum
per-move increase), hill_climb abandons this instance after a single
expansion, because every successor raises the priority by 3 (one depth step
plus a heuristic increase of 2) while a_star solves it: the two strategies
return different expanded counts and different results. -/
theorem claim_C8_counterexample :
    hill_climb [["0", "1", "2"], ["3", "4", "5"]]
        [["0", "1", "5"], ["3", "2", "4"]] manhattanH 100 = some (1, none)
    ∧ a_star [["0", "1", "2"], ["3", "4", "5"]]
        [["0", "1", "5"], ["3", "2", "4"]] manhattanH 100
      = some (7, some ["Up;", "Left;", "Up;", "Right;", "Down;", "Down;"]) :=
  ⟨by rfl, by rfl⟩

set_option maxRecDepth 100000 in
set_option maxHeartbeats 4000000 in
/-- C3 counterexample: on this solvable 2×3 instance a_star with the default
Manhattan heuristic (which scores the blank and is therefore inadmissible)
returns a 17-move sequence although a 15-move solution exists (replayed
below from the initial state), so the returned length is not minimal. -/
theorem claim_C3_counterexample :
    (a_star [["0", "1", "2"], ["3", "4", "5"]]
        [["1", "5", "3"], ["0", "2", "4"]] manhattanH 200).map
      (fun r => r.2.map List.length) = some (some 17)
    ∧ replay [["0", "1", "2"], ["3", "4", "5"]]
        (["Right;", "Up;", "Up;", "Left;", "Down;", "Right;", "Down;",
          "Left;", "Up;", "Right;", "Up;", "Left;", "Down;", "Right;",
          "Down;"].reverse)
      = some [["1", "5", "3"], ["0", "2", "4"]] :=
  ⟨by rfl, by rfl⟩

/-! # Coordinates and the swap performed by _move -/

theorem coordsInColumn_spec {col : List String} {t : String} {y0 yr : Nat}
    (h : coordsInColumn col t y0 = some yr) :
    ∃ k, yr = y0 + k ∧ k < col.length ∧ col.getD k "" = t := by
  induction col generalizing y0 with
  | nil => simp [coordsInColumn] at h
  | cons c cs ih =>
    by_cases hc : c = t
    · simp [coordsInColumn, hc] at h
      exact ⟨0, by omega, by simp, by simpa using hc⟩
    · simp only [coordsInColumn, if_neg hc] at h
      obtain ⟨k, hk1, hk2, hk3⟩ := ih h
      exact ⟨k + 1, by omega, by simp; omega, by simpa using hk3⟩

theorem coordsAux_spec {s : List (List String)} {t : String} {x0 xr y : Nat}
    (h : coordsAux s t x0 = some (xr, y)) :
    ∃ k, xr = x0 + k ∧ k < s.length
      ∧ coordsInColumn (s.getD k []) t 0 = some y := by
  induction s generalizing x0 with
  | nil => simp [coordsAux] at h
  | cons c cs ih =>
    cases hcc : coordsInColumn c t 0 with
    | some y' =>
      simp [coordsAux, hcc] at h
      exact ⟨0, by omega, by simp, by simp [h.1.symm, ← h.2, hcc]⟩
    | none =>
      simp only [coordsAux, hcc] at h
      obtain ⟨k, hk1, hk2, hk3⟩ := ih h
      exact ⟨k + 1, by omega, by simp; omega, by simpa using hk3⟩

theorem coords_of_tile_spec {s : State} {t : String} {x y : Nat}
    (h : coords_of_tile s t = some (x, y)) :
    x < s.length ∧ y < (s.getD x []).length ∧ get2 s x y = t := by
  obtain ⟨k, hk1, hk2, hk3⟩ := coordsAux_spec h
  obtain rfl : x = k := by omega
  obtain ⟨k', hk1', hk2', hk3'⟩ := coordsInColumn_spec hk3
  obtain rfl : y = k' := by omega
  exact ⟨hk2, hk2', hk3'⟩

theorem getD_col_length {s : State} {hgt : Nat}
    (hrect : ∀ c ∈ s, c.length = hgt) {x : Nat} (hx : x < s.length) :
    (s.getD x []).length = hgt := by
  have he : s.getD x [] = s[x] := by
    simp [List.getElem?_eq_getElem hx]
  rw [he]
  exact hrect _ (List.getElem_mem hx)

theorem headD_length {s : State} {hgt : Nat}
    (hrect : ∀ c ∈ s, c.length = hgt) (hne : s ≠ []) :
    (s.headD []).length = hgt := by
  cases s with
  | nil => exact absurd rfl hne
  | cons c cs => exact hrect c (by simp)

theorem length_set2 (s : State) (x y : Nat) (v : String) :
    (set2 s x y v).length = s.length :=
  List.length_set s x _

theorem rect_set2 {s : State} {hgt : Nat}
    (hrect : ∀ c ∈ s, c.length = hgt) {x : Nat} (hx : x < s.length)
    (y : Nat) (v : String) : ∀ c ∈ set2 s x y v, c.length = hgt := by
  intro c hc
  rcases List.mem_or_eq_of_mem_set hc with hc | rfl
  · exact hrect c hc
  · rw [List.length_set]
    exact getD_col_length hrect hx

theorem get2_set2 {s : State} {x y : Nat} (hx : x < s.length)
    (hy : y < (s.getD x []).length) (v : String) (i j : Nat) :
    get2 (set2 s x y v) i j = if i = x ∧ j = y then v else get2 s i j := by
  by_cases hix : i = x
  · subst hix
    have h1 : (set2 s i y v).getD i [] = (s.getD i []).set y v := by
      unfold set2
      simp [List.getElem?_set_self hx]
    by_cases hjy : j = y
    · subst hjy
      rw [get2, h1, if_pos ⟨rfl, rfl⟩]
      have hy' : j < (s[i]?.getD []).length := by simpa using hy
      simp [List.getElem?_set_self hy']
    · rw [get2, h1, if_neg (fun hk => hjy hk.2), get2]
      simp [List.getElem?_set_ne (fun h => hjy h.symm)]
  · have h1 : (set2 s x y v).getD i [] = s.getD i [] := by
      unfold set2
      simp [List.getElem?_set_ne (fun h => hix h.symm)]
    rw [get2, h1, if_neg (fun hk => hix hk.1), get2]

/-- Decomposition of a successful _move: the blank is at (x, y), the target
is in bounds, and the result is the double update that swaps the two
cells. -/
theorem move_eq_some_parts {s s' : State} {dx dy : Int}
    (h : _move s (dx, dy) = some s') :
    ∃ x y, coords_of_tile s "0" = some (x, y)
      ∧ ¬ ((x : Int) + dx < 0 ∨ (s.length : Int) ≤ (x : Int) + dx
          ∨ (y : Int) + dy < 0
          ∨ (((s.headD []).length : Nat) : Int) ≤ (y : Int) + dy)
      ∧ s' = set2 (set2 s x y
            (get2 s ((x : Int) + dx).toNat ((y : Int) + dy).toNat))
          ((x : Int) + dx).toNat ((y : Int) + dy).toNat (get2 s x y) := by
  cases hc : coords_of_tile s "0" with
  | none => simp [_move, hc] at h
  | some p =>
    obtain ⟨x, y⟩ := p
    simp only [_move, hc] at h
    split at h
    · exact Option.noConfusion h
    · rename_i hcond
      exact ⟨x, y, rfl, hcond, (Option.some_inj.mp h).symm⟩

/-- For the four legal offsets, an in-bounds target cell differs from the
blank's cell. -/
theorem offset_ne {x y : Nat} {dx dy : Int} {len hgt : Nat}
    (hδ : (dx, dy) ∈ [((0 : Int), (-1 : Int)), (-1, 0), (0, 1), (1, 0)])
    (hin : ¬ ((x : Int) + dx < 0 ∨ (len : Int) ≤ (x : Int) + dx
        ∨ (y : Int) + dy < 0 ∨ (hgt : Int) ≤ (y : Int) + dy)) :
    ¬ (((x : Int) + dx).toNat = x ∧ ((y : Int) + dy).toNat = y) := by
  simp only [List.mem_cons, List.mem_singleton, Prod.mk.injEq] at hδ
  rcases hδ with ⟨rfl, rfl⟩ | ⟨rfl, rfl⟩ | ⟨rfl, rfl⟩ | ⟨⟨rfl, rfl⟩ | h⟩
  · omega
  · omega
  · omega
  · omega
  · simp at h

/-- C5: for a state whose blank "0" is at (x, y) (its first occurrence) and
whose columns all have length hgt, each of the four one-cell offsets either
lands outside range(len(state)) × range(len(state[0])) and _move returns
none, or _move returns a new state that agrees with the input everywhere
except that the blank's cell now holds the target tile and the target cell
the blank.  (The embedding is functional, so the input state is unchanged by
construction, as deepcopy guarantees in the source.) -/
theorem claim_C5 (s : State) (x y : Nat) (dx dy : Int) (hgt : Nat)
    (hblank : coords_of_tile s "0" = some (x, y))
    (hrect : ∀ c ∈ s, c.length = hgt)
    (hoff : (dx, dy) ∈ [((0 : Int), (-1 : Int)), (-1, 0), (0, 1), (1, 0)]) :
    (((x : Int) + dx < 0 ∨ (s.length : Int) ≤ (x : Int) + dx
        ∨ (y : Int) + dy < 0 ∨ (hgt : Int) ≤ (y : Int) + dy) →
      _move s (dx, dy) = none)
    ∧ (¬ ((x : Int) + dx < 0 ∨ (s.length : Int) ≤ (x : Int) + dx
        ∨ (y : Int) + dy < 0 ∨ (hgt : Int) ≤ (y : Int) + dy) →
      ∃ s', _move s (dx, dy) = some s'
        ∧ get2 s x y = "0"
        ∧ s'.length = s.length
        ∧ (∀ c ∈ s', c.length = hgt)
        ∧ (∀ i j, i < s.length → j < hgt →
            get2 s' i j =
              if i = x ∧ j = y then
                get2 s ((x : Int) + dx).toNat ((y : Int) + dy).toNat
              else if i = ((x : Int) + dx).toNat ∧ j = ((y : Int) + dy).toNat
              then "0"
              else get2 s i j)) := by
  have hnil : s ≠ [] := by
    rintro rfl
    simp [coords_of_tile, coordsAux] at hblank
  have hhead : (s.headD []).length = hgt := headD_length hrect hnil
  obtain ⟨hxlt, hylt, hat⟩ := coords_of_tile_spec hblank
  have hylt' : y < hgt := by rwa [getD_col_length hrect hxlt] at hylt
  constructor
  · intro hout
    simp only [_move, hblank, hhead]
    rw [if_pos hout]
  · intro hin
    have hx2 : ((x : Int) + dx).toNat < s.length := by omega
    have hy2 : ((y : Int) + dy).toNat < hgt := by omega
    have hne2 : ¬ (((x : Int) + dx).toNat = x ∧ ((y : Int) + dy).toNat = y) :=
      offset_ne hoff hin
    set x2 := ((x : Int) + dx).toNat with hx2def
    set y2 := ((y : Int) + dy).toNat with hy2def
    have hmv : _move s (dx, dy)
        = some (set2 (set2 s x y (get2 s x2 y2)) x2 y2 (get2 s x y)) := by
      simp only [_move, hblank, hhead]
      rw [if_neg hin]
    have hrect1 : ∀ c ∈ set2 s x y (get2 s x2 y2), c.length = hgt :=
      rect_set2 hrect hxlt y _
    refine ⟨_, hmv, hat, ?_, ?_, ?_⟩
    · rw [length_set2, length_set2]
    · intro c hc
      apply rect_set2 hrect1 _ y2 _ c hc
      rw [length_set2]
      exact hx2
    · intro i j hi hj
      rw [get2_set2 (by rw [length_set2]; exact hx2)
        (by rw [getD_col_length hrect1 (by rw [length_set2]; exact hx2)]
            exact hy2),
        get2_set2 hxlt hylt]
      rw [hat]
      split_ifs <;> first | rfl | exact absurd ⟨by omega, by omega⟩ hne2

/-- C5 witness: the 2×2 state [["0","2"],["1","3"]] with the Down offset
(0, 1): the move succeeds and the blank's cell takes the target tile. -/
theorem claim_C5_witness :
    ∃ s', _move [["0", "2"], ["1", "3"]] (0, 1) = some s'
      ∧ get2 [["0", "2"], ["1", "3"]] 0 0 = "0" := by
  obtain ⟨s', h1, h2, -⟩ :=
    (claim_C5 [["0", "2"], ["1", "3"]] 0 0 0 1 2 (by rfl) (by decide)
      (by simp)).2 (by decide)
  exact ⟨s', h1, h2⟩

/-! # Moves permute the grid's cells (toward C10) -/

theorem flatten_length_rect {s : State} {hgt : Nat}
    (hrect : ∀ c ∈ s, c.length = hgt) :
    s.flatten.length = s.length * hgt := by
  induction s with
  | nil => simp
  | cons c cs ih =>
    have hc : c.length = hgt := hrect c (by simp)
    have ih' := ih (fun d hd => hrect d (by simp [hd]))
    simp only [List.flatten_cons, List.length_append, List.length_cons,
      Nat.succ_mul, ih', hc]
    omega

theorem get2_flatten {s : State} {hgt : Nat}
    (hrect : ∀ c ∈ s, c.length = hgt) {x y : Nat} (hx : x < s.length)
    (hy : y < hgt) : get2 s x y = s.flatten.getD (x * hgt + y) "" := by
  induction s generalizing x with
  | nil => simp at hx
  | cons c cs ih =>
    have hc : c.length = hgt := hrect c (by simp)
    cases x with
    | zero =>
      have hyc : y < c.length := by omega
      rw [get2]
      simp only [List.getD_cons_zero, List.flatten_cons, Nat.zero_mul,
        Nat.zero_add, List.getD_eq_getElem?_getD,
        List.getElem?_append_left hyc, List.getElem?_cons_zero,
        Option.getD_some]
    | succ x' =>
      have hx' : x' < cs.length := by simpa using hx
      have ih' := ih (fun d hd => hrect d (by simp [hd])) hx'
      rw [get2] at ih' ⊢
      simp only [List.getD_cons_succ, List.flatten_cons]
      rw [ih', Nat.succ_mul]
      have hge : c.length ≤ x' * hgt + hgt + y := by omega
      simp only [List.getD_eq_getElem?_getD,
        List.getElem?_append_right hge]
      have hidx : x' * hgt + hgt + y - c.length = x' * hgt + y := by omega
      rw [hidx]

theorem flatten_set2 {s : State} {hgt : Nat}
    (hrect : ∀ c ∈ s, c.length = hgt) {x y : Nat} (hx : x < s.length)
    (hy : y < hgt) (v : String) :
    (set2 s x y v).flatten = s.flatten.set (x * hgt + y) v := by
  induction s generalizing x with
  | nil => simp at hx
  | cons c cs ih =>
    have hc : c.length = hgt := hrect c (by simp)
    cases x with
    | zero =>
      have h0 : set2 (c :: cs) 0 y v = (c.set y v) :: cs := rfl
      rw [h0]
      simp only [List.flatten_cons, Nat.zero_mul, Nat.zero_add]
      rw [List.set_append_left _ _ (by omega)]
    | succ x' =>
      have h0 : set2 (c :: cs) (x' + 1) y v = c :: set2 cs x' y v := rfl
      rw [h0]
      simp only [List.flatten_cons]
      rw [ih (fun d hd => hrect d (by simp [hd])) (by simpa using hx),
        Nat.succ_mul, List.set_append_right _ _ (by omega)]
      have hidx : x' * hgt + hgt + y - c.length = x' * hgt + y := by omega
      rw [hidx]

theorem count_set_aux {α : Type} [DecidableEq α] (t v d : α) (l : List α)
    (n : Nat) (hn : n < l.length) :
    (l.set n v).count t + (if l.getD n d = t then 1 else 0)
      = l.count t + (if v = t then 1 else 0) := by
  induction l generalizing n with
  | nil => simp at hn
  | cons c cs ih =>
    cases n with
    | zero =>
      simp only [List.set_cons_zero, List.getD_cons_zero, List.count_cons]
      split_ifs <;> simp_all <;> omega
    | succ n' =>
      simp only [List.set_cons_succ, List.getD_cons_succ, List.count_cons]
      have hrec := ih n' (by simpa using hn)
      split_ifs at hrec ⊢ <;> simp_all <;> omega

theorem set_swap_perm {α : Type} [DecidableEq α] {l : List α} (d : α)
    {p q : Nat} (hp : p < l.length) (hq : q < l.length) (hne : p ≠ q) :
    ((l.set p (l.getD q d)).set q (l.getD p d)).Perm l := by
  apply List.perm_iff_count.mpr
  intro t
  have h1 := count_set_aux t (l.getD q d) d l p hp
  have h2 := count_set_aux t (l.getD p d) d (l.set p (l.getD q d)) q
    (by simpa using hq)
  have h3 : (l.set p (l.getD q d)).getD q d = l.getD q d := by
    simp [List.getElem?_set_ne hne]
  rw [h3] at h2
  split_ifs at h1 h2 <;> omega

theorem grid_index_lt {x y len hgt : Nat} (hx : x < len) (hy : y < hgt) :
    x * hgt + y < len * hgt := by
  have h1 : x * hgt + y < (x + 1) * hgt := by rw [Nat.succ_mul]; omega
  have h2 : (x + 1) * hgt ≤ len * hgt := Nat.mul_le_mul_right hgt (by omega)
  omega

theorem grid_index_ne {x y x2 y2 hgt : Nat} (hy : y < hgt) (hy2 : y2 < hgt)
    (h : ¬ (x2 = x ∧ y2 = y)) : x2 * hgt + y2 ≠ x * hgt + y := by
  intro he
  rcases Nat.lt_trichotomy x2 x with hlt | rfl | hlt
  · have h2 : (x2 + 1) * hgt ≤ x * hgt := Nat.mul_le_mul_right hgt (by omega)
    rw [Nat.succ_mul] at h2
    omega
  · simp only [true_and, not_and] at h
    omega
  · have h2 : (x + 1) * hgt ≤ x2 * hgt := Nat.mul_le_mul_right hgt (by omega)
    rw [Nat.succ_mul] at h2
    omega

/-- A successful _move with one of the four one-cell offsets permutes the
cells of a rectangular grid. -/
theorem move_perm {s s' : State} {dx dy : Int} {hgt : Nat}
    (hrect : ∀ c ∈ s, c.length = hgt)
    (hδ : (dx, dy) ∈ [((0 : Int), (-1 : Int)), (-1, 0), (0, 1), (1, 0)])
    (h : _move s (dx, dy) = some s') : s'.flatten.Perm s.flatten := by
  obtain ⟨x, y, hc, hin, rfl⟩ := move_eq_some_parts h
  obtain ⟨hxlt, hylt, hat⟩ := coords_of_tile_spec hc
  have hnil : s ≠ [] := by
    rintro rfl
    simp [coords_of_tile, coordsAux] at hc
  have hhead : (s.headD []).length = hgt := headD_length hrect hnil
  rw [hhead] at hin
  have hylt' : y < hgt := by rwa [getD_col_length hrect hxlt] at hylt
  have hx2 : ((x : Int) + dx).toNat < s.length := by omega
  have hy2 : ((y : Int) + dy).toNat < hgt := by omega
  have hne2 := offset_ne hδ hin
  have hlen : s.flatten.length = s.length * hgt := flatten_length_rect hrect
  have hrect1 := rect_set2 hrect hxlt y
    (get2 s ((x : Int) + dx).toNat ((y : Int) + dy).toNat)
  rw [flatten_set2 hrect1 (by rw [length_set2]; exact hx2) hy2,
    flatten_set2 hrect hxlt hylt',
    get2_flatten hrect hx2 hy2, get2_flatten hrect hxlt hylt']
  exact set_swap_perm "" (by rw [hlen]; exact grid_index_lt hxlt hylt')
    (by rw [hlen]; exact grid_index_lt hx2 hy2)
    (grid_index_ne hy2 hylt' (fun hk => hne2 ⟨hk.1.symm, hk.2.symm⟩))

/-- C10: on a rectangular state, a successful up/left/down/right move
returns a state whose cells are a permutation of the input's cells; in
particular every label that appeared exactly once still appears exactly
once. -/
theorem claim_C10 (s s' : State) (hgt : Nat) (mv : State → Option State)
    (hmv : mv ∈ ([up, left, down, right] : List (State → Option State)))
    (hrect : ∀ c ∈ s, c.length = hgt) (h : mv s = some s') :
    s'.flatten.Perm s.flatten
    ∧ ∀ t : String, s.flatten.count t = 1 → s'.flatten.count t = 1 := by
  have hperm : s'.flatten.Perm s.flatten := by
    simp only [List.mem_cons, List.not_mem_nil, or_false] at hmv
    rcases hmv with rfl | rfl | rfl | rfl
    · exact move_perm hrect (by simp) h
    · exact move_perm hrect (by simp) h
    · exact move_perm hrect (by simp) h
    · exact move_perm hrect (by simp) h
  exact ⟨hperm, fun t ht => by rw [hperm.count_eq]; exact ht⟩

/-- C10 witness: the Down move on the 2×2 state [["0","2"],["1","3"]]. -/
theorem claim_C10_witness :
    ([["2", "0"], ["1", "3"]] : State).flatten.Perm
      ([["0", "2"], ["1", "3"]] : State).flatten := by
  have h := claim_C10 [["0", "2"], ["1", "3"]] [["2", "0"], ["1", "3"]] 2
    down (by simp) (by decide) (by rfl)
  exact h.1

/-! # Path invariants of the generic search loop (toward C1 and C2) -/

theorem replay_append (s : State) (xs ys : List String) :
    replay s (xs ++ ys) = (replay s xs).bind (fun t => replay t ys) := by
  induction xs generalizing s with
  | nil => rfl
  | cons a as ih =>
    simp only [List.cons_append, replay]
    cases apply_action s a with
    | none => rfl
    | some t => exact ih t

/-- The invariant bundle carried by every node the search loop ever holds:
its labels are among the four move labels, replaying them in reverse from
the initial state reaches the node's state, and its depth equals the number
of labels. -/
def NodeOK (init : State) (n : Node) : Prop :=
  replay init (reconstruct_actions n).reverse = some n.state
  ∧ (∀ a ∈ reconstruct_actions n,
      a ∈ (["Up;", "Left;", "Down;", "Right;"] : List String))
  ∧ (reconstruct_actions n).length = n.num_parents

theorem nodeOK_root (init : State) : NodeOK init (Node.root init) := by
  refine ⟨rfl, ?_, rfl⟩
  intro a ha
  simp [reconstruct_actions] at ha

theorem nodeOK_child {init : State} {cur : Node} (h : NodeOK init cur)
    {a : String} {s' : State}
    (ha : a ∈ (["Up;", "Left;", "Down;", "Right;"] : List String))
    (happ : apply_action cur.state a = some s') :
    NodeOK init (Node.child s' cur a) := by
  obtain ⟨h1, h2, h3⟩ := h
  refine ⟨?_, ?_, ?_⟩
  · show replay init (a :: reconstruct_actions cur).reverse = some s'
    rw [List.reverse_cons, replay_append, h1]
    show replay cur.state [a] = some s'
    simp only [replay, happ]
  · intro b hb
    rcases List.mem_cons.mp hb with rfl | hb
    · exact ha
    · exact h2 b hb
  · simp [reconstruct_actions, Node.num_parents, h3]

theorem apply_action_up (s : State) : apply_action s "Up;" = up s := by
  simp [apply_action]

theorem apply_action_left (s : State) : apply_action s "Left;" = left s := by
  simp [apply_action]

theorem apply_action_down (s : State) : apply_action s "Down;" = down s := by
  simp [apply_action]

theorem apply_action_right (s : State) : apply_action s "Right;" = right s := by
  simp [apply_action]

theorem addIfNew_inv {F : Type} {fadd : Node → F → F} {Inv : F → Prop}
    {P : Node → Prop}
    (hadd : ∀ f n, Inv f → P n → Inv (fadd n f))
    {cur : Node}
    (hchild : ∀ a s', a ∈ (["Up;", "Left;", "Down;", "Right;"] : List String)
      → apply_action cur.state a = some s' → P (Node.child s' cur a))
    {f : F} (hf : Inv f)
    (closed : List State) {succ : Option State} {a : String}
    (ha : a ∈ (["Up;", "Left;", "Down;", "Right;"] : List String))
    (happ : apply_action cur.state a = succ) :
    Inv (open_set_add_if_new fadd closed cur f succ a) := by
  unfold open_set_add_if_new
  split
  · rename_i hguard
    apply hadd _ _ hf
    cases succ with
    | none => simp [_state_is_valid] at hguard
    | some s' => exact hchild a s' ha (by simpa using happ)
  · exact hf

theorem addSuccessors_inv {F : Type} {fadd : Node → F → F} {Inv : F → Prop}
    {P : Node → Prop}
    (hadd : ∀ f n, Inv f → P n → Inv (fadd n f))
    {cur : Node}
    (hchild : ∀ a s', a ∈ (["Up;", "Left;", "Down;", "Right;"] : List String)
      → apply_action cur.state a = some s' → P (Node.child s' cur a))
    {f : F} (hf : Inv f)
    (closed : List State) : Inv (addSuccessors fadd closed cur f) := by
  unfold addSuccessors
  apply addIfNew_inv hadd hchild _ closed (by simp) (apply_action_right _)
  apply addIfNew_inv hadd hchild _ closed (by simp) (apply_action_down _)
  apply addIfNew_inv hadd hchild _ closed (by simp) (apply_action_left _)
  apply addIfNew_inv hadd hchild _ closed (by simp) (apply_action_up _)
  exact hf

/-- Partial-correctness of the generic loop with respect to a node
predicate P that holds of the root, is preserved to children reached by one
of the four moves, and is respected by the frontier discipline: a returned
action list is the label list of a P-node whose state is the goal. -/
theorem searchLoop_path {F : Type} {fget : F → Option (Node × F)}
    {fadd : Node → F → F} {g : State} (P : Node → Prop) (Inv : F → Prop)
    (hget : ∀ f n f', Inv f → fget f = some (n, f') → P n ∧ Inv f')
    (hadd : ∀ f n, Inv f → P n → Inv (fadd n f))
    (hchild : ∀ (cur : Node), P cur → ∀ a s',
      a ∈ (["Up;", "Left;", "Down;", "Right;"] : List String)
      → apply_action cur.state a = some s' → P (Node.child s' cur a)) :
    ∀ (fuel : Nat) (cur : Node) (closed cl : List State)
      (f : F) (acts : List String),
      P cur → Inv f →
      searchLoop fget fadd g fuel cur closed f = some (cl, some acts) →
      ∃ n : Node, P n ∧ n.state = g ∧ acts = reconstruct_actions n := by
  intro fuel
  induction fuel with
  | zero => intro cur closed cl f acts _ _ h; exact Option.noConfusion h
  | succ fuel ih =>
    intro cur closed cl f acts hcur hinv h
    rw [searchLoop] at h
    by_cases hgoal : cur.state = g
    · rw [if_pos hgoal] at h
      have hpair := Option.some_inj.mp h
      have hacts : acts = reconstruct_actions cur := by
        have := congrArg Prod.snd hpair
        simpa using this.symm
      subst hacts
      exact ⟨cur, hcur, hgoal, rfl⟩
    · rw [if_neg hgoal] at h
      have hinv4 : Inv (addSuccessors fadd (insort cur.state closed) cur f) :=
        addSuccessors_inv hadd (hchild cur hcur) hinv _
      cases hfg : fget (addSuccessors fadd (insort cur.state closed) cur f) with
      | none =>
        rw [hfg] at h
        have := congrArg Prod.snd (Option.some_inj.mp h)
        simp at this
      | some r =>
        obtain ⟨n, f'⟩ := r
        rw [hfg] at h
        obtain ⟨hn, hf'⟩ := hget _ _ _ hinv4 hfg
        exact ih n (insort cur.state closed) cl f' acts hn hf' h

/-! ## Frontier disciplines hand back only nodes they were given -/

def AllNodes (P : Node → Prop) (l : List Node) : Prop := ∀ n ∈ l, P n

def AllEntries (P : Node → Prop) (h : List Entry) : Prop := ∀ e ∈ h, P e.2

def AllDL (P : Node → Prop) (s : DLState) : Prop :=
  AllNodes P s.open_set ∧ AllNodes P s.paused_set

theorem listPop_all {P : Node → Prop} {l l' : List Node} {n : Node}
    (hall : AllNodes P l) (h : listPop l = some (n, l')) :
    P n ∧ AllNodes P l' := by
  unfold listPop at h
  cases hl : l.getLast? with
  | none => rw [hl] at h; exact Option.noConfusion h
  | some m =>
    rw [hl] at h
    obtain ⟨h1, h2⟩ := Prod.mk.injEq .. ▸ Option.some_inj.mp h
    subst h1; subst h2
    exact ⟨hall _ (List.mem_of_getLast?_eq_some hl),
      fun x hx => hall x (List.dropLast_subset l hx)⟩

theorem listAppend_all {P : Node → Prop} {l : List Node} {n : Node}
    (hall : AllNodes P l) (hp : P n) : AllNodes P (listAppend n l) := by
  intro x hx
  rcases List.mem_append.mp hx with hx | hx
  · exact hall x hx
  · simp at hx; subst hx; exact hp

theorem dequePopLeft_all {P : Node → Prop} {l l' : List Node} {n : Node}
    (hall : AllNodes P l) (h : dequePopLeft l = some (n, l')) :
    P n ∧ AllNodes P l' := by
  cases l with
  | nil => exact Option.noConfusion h
  | cons m ms =>
    obtain ⟨h1, h2⟩ := Prod.mk.injEq .. ▸ Option.some_inj.mp h
    subst h1; subst h2
    exact ⟨hall _ (by simp), fun x hx => hall x (by simp [hx])⟩

theorem heapGet_mem {heap : List Entry} {i : Nat} (h : i < heap.length) :
    heapGet heap i ∈ heap := by
  unfold heapGet
  rw [List.getD_eq_getElem?_getD, List.getElem?_eq_getElem h]
  exact List.getElem_mem h

theorem mem_of_mem_siftdownLoop {newitem : Entry} {startpos : Nat} :
    ∀ {fuel : Nat} {heap : List Entry} {pos : Nat}, pos < heap.length →
    ∀ {e : Entry}, e ∈ siftdownLoop fuel heap newitem startpos pos →
    e ∈ heap ∨ e = newitem := by
  intro fuel
  induction fuel with
  | zero =>
    intro heap pos hpos e h
    rw [siftdownLoop] at h
    exact List.mem_or_eq_of_mem_set h
  | succ fuel ih =>
    intro heap pos hpos e h
    rw [siftdownLoop] at h
    split at h
    · rename_i hsp
      split at h
      · have hplt : (pos - 1) / 2
            < (heap.set pos (heapGet heap ((pos - 1) / 2))).length := by
          rw [List.length_set]; omega
        rcases ih hplt h with hmem | rfl
        · rcases List.mem_or_eq_of_mem_set hmem with hmem | rfl
          · exact Or.inl hmem
          · exact Or.inl (heapGet_mem (by omega))
        · exact Or.inr rfl
      · exact List.mem_or_eq_of_mem_set h
    · exact List.mem_or_eq_of_mem_set h

theorem mem_heappush {heap : List Entry} {it e : Entry}
    (h : e ∈ heappush heap it) : e ∈ heap ∨ e = it := by
  unfold heappush _siftdown at h
  have hlen : heap.length < (heap ++ [it]).length := by simp
  have hget : heapGet (heap ++ [it]) heap.length = it := by
    unfold heapGet
    simp [List.getElem?_append_right (Nat.le_refl _)]
  rw [hget] at h
  rcases mem_of_mem_siftdownLoop hlen h with hmem | rfl
  · rcases List.mem_append.mp hmem with hm | hm
    · exact Or.inl hm
    · simp at hm; exact Or.inr hm
  · exact Or.inr rfl

theorem pickChild_lt {heap : List Entry} {endpos pos : Nat}
    (h : 2 * pos + 1 < endpos) : pickChild heap endpos pos < endpos := by
  unfold pickChild
  split
  · rename_i hr; exact hr.1
  · exact h

theorem siftupLoop_length {endpos : Nat} :
    ∀ {fuel : Nat} {heap : List Entry} {pos : Nat},
    (siftupLoop fuel heap endpos pos).1.length = heap.length := by
  intro fuel
  induction fuel with
  | zero => intro heap pos; rfl
  | succ fuel ih =>
    intro heap pos
    rw [siftupLoop]
    split
    · rw [ih, List.length_set]
    · rfl

theorem siftupLoop_pos_lt {endpos : Nat} :
    ∀ {fuel : Nat} {heap : List Entry} {pos : Nat}, pos < endpos →
    (siftupLoop fuel heap endpos pos).2 < endpos := by
  intro fuel
  induction fuel with
  | zero => intro heap pos h; exact h
  | succ fuel ih =>
    intro heap pos h
    rw [siftupLoop]
    split
    · rename_i hcp
      exact ih (pickChild_lt hcp)
    · exact h

theorem mem_siftupLoop {endpos : Nat} :
    ∀ {fuel : Nat} {heap : List Entry} {pos : Nat},
    endpos ≤ heap.length →
    ∀ {e : Entry}, e ∈ (siftupLoop fuel heap endpos pos).1 → e ∈ heap := by
  intro fuel
  induction fuel with
  | zero => intro heap pos _ e h; exact h
  | succ fuel ih =>
    intro heap pos hend e h
    rw [siftupLoop] at h
    split at h
    · rename_i hcp
      have hmem := ih (by rw [List.length_set]; exact hend) h
      rcases List.mem_or_eq_of_mem_set hmem with hmem | rfl
      · exact hmem
      · exact heapGet_mem (Nat.lt_of_lt_of_le (pickChild_lt hcp) hend)
    · exact h

theorem mem_siftup {heap : List Entry} {pos : Nat} (hpos : pos < heap.length)
    {e : Entry} (h : e ∈ _siftup heap pos) : e ∈ heap := by
  unfold _siftup _siftdown at h
  have hlen : (siftupLoop heap.length heap heap.length pos).1.length
      = heap.length := siftupLoop_length
  have hp2 : (siftupLoop heap.length heap heap.length pos).2 < heap.length :=
    siftupLoop_pos_lt hpos
  have hget : heapGet ((siftupLoop heap.length heap heap.length pos).1.set
      (siftupLoop heap.length heap heap.length pos).2 (heapGet heap pos))
      (siftupLoop heap.length heap heap.length pos).2 = heapGet heap pos := by
    unfold heapGet
    simp [List.getElem?_set_self (by rw [hlen]; exact hp2)]
  rw [hget] at h
  have hplen : (siftupLoop heap.length heap heap.length pos).2
      < ((siftupLoop heap.length heap heap.length pos).1.set
        (siftupLoop heap.length heap heap.length pos).2
        (heapGet heap pos)).length := by
    rw [List.length_set, hlen]; exact hp2
  rcases mem_of_mem_siftdownLoop hplen h with hmem | rfl
  · rcases List.mem_or_eq_of_mem_set hmem with hmem | rfl
    · exact mem_siftupLoop (Nat.le_refl _) hmem
    · exact heapGet_mem hpos
  · exact heapGet_mem hpos

theorem heappop_mem {heap h' : List Entry} {e : Entry}
    (h : heappop heap = some (e, h')) : e ∈ heap ∧ ∀ x ∈ h', x ∈ heap := by
  unfold heappop at h
  split at h
  · exact Option.noConfusion h
  · rename_i lastelt hl
    split at h
    · obtain ⟨h1, h2⟩ := Prod.mk.injEq .. ▸ Option.some_inj.mp h
      subst h1; subst h2
      exact ⟨List.mem_of_getLast?_eq_some hl,
        fun x hx => List.dropLast_subset heap hx⟩
    · rename_i hemp
      obtain ⟨h1, h2⟩ := Prod.mk.injEq .. ▸ Option.some_inj.mp h
      subst h1; subst h2
      have hne : 0 < heap.dropLast.length := by
        cases hd : heap.dropLast with
        | nil => rw [hd] at hemp; simp at hemp
        | cons a as => simp [hd]
      constructor
      · exact List.dropLast_subset heap (heapGet_mem hne)
      · intro x hx
        have hx' := mem_siftup (by rw [List.length_set]; exact hne) hx
        rcases List.mem_or_eq_of_mem_set hx' with hm | rfl
        · exact List.dropLast_subset heap hm
        · exact List.mem_of_getLast?_eq_some hl

theorem pqGet_all {P : Node → Prop} {h : List Entry} {n : Node}
    {h' : List Entry} (hall : AllEntries P h)
    (hg : pqGet h = some (n, h')) : P n ∧ AllEntries P h' := by
  unfold pqGet at hg
  cases hp : heappop h with
  | none => rw [hp] at hg; exact Option.noConfusion hg
  | some r =>
    obtain ⟨e, h2⟩ := r
    rw [hp] at hg
    obtain ⟨hg1, hg2⟩ := Prod.mk.injEq .. ▸ Option.some_inj.mp hg
    subst hg1; subst hg2
    obtain ⟨he, hsub⟩ := heappop_mem hp
    exact ⟨hall _ he, fun x hx => hall x (hsub x hx)⟩

theorem pqAddWith_all {P : Node → Prop} {pr : Node → Nat} {n : Node}
    {h : List Entry} (hall : AllEntries P h) (hp : P n) :
    AllEntries P (pqAddWith pr n h) := by
  intro e he
  rcases mem_heappush he with he | rfl
  · exact hall e he
  · exact hp

theorem hcAdd_all {P : Node → Prop} {heuristic : State → State → Nat}
    {g : State} {t : Nat} {n : Node} {h : List Entry}
    (hall : AllEntries P h) (hp : P n) :
    AllEntries P (hcAdd heuristic g t n h) := by
  intro e he
  unfold hcAdd at he
  cases n with
  | root s => exact hall e he
  | child s p a =>
    have he' : e ∈ (if p.num_parents + 1 + heuristic s g
        > p.num_parents + heuristic p.state g + t then h
      else heappush h
        (p.num_parents + 1 + heuristic s g, Node.child s p a)) := he
    by_cases hcond : p.num_parents + 1 + heuristic s g
        > p.num_parents + heuristic p.state g + t
    · rw [if_pos hcond] at he'
      exact hall e he'
    · rw [if_neg hcond] at he'
      rcases mem_heappush he' with he' | rfl
      · exact hall e he'
      · exact hp

theorem dlAdd_all {P : Node → Prop} {n : Node} {s : DLState}
    (hall : AllDL P s) (hp : P n) : AllDL P (dlAdd n s) := by
  unfold dlAdd
  split
  · exact ⟨listAppend_all hall.1 hp, hall.2⟩
  · exact ⟨hall.1, listAppend_all hall.2 hp⟩

theorem dlGet_all {P : Node → Prop} {s s' : DLState} {n : Node}
    (hall : AllDL P s) (h : dlGet s = some (n, s')) :
    P n ∧ AllDL P s' := by
  have hboth : ∀ x ∈ (if s.open_set.isEmpty then s.paused_set
      else s.open_set), P x := by
    split
    · exact hall.2
    · exact hall.1
  unfold dlGet at h
  split at h
  · exact Option.noConfusion h
  · rename_i m hl
    obtain ⟨h1, h2⟩ := Prod.mk.injEq .. ▸ Option.some_inj.mp h
    subst h1; subst h2
    refine ⟨hboth _ (List.mem_of_getLast?_eq_some hl), ?_, ?_⟩
    · exact fun x hx => hboth x (List.dropLast_subset _ hx)
    · split
      · intro x hx; simp at hx
      · exact hall.2

/-! # Claims C1, C2, C6 -/

theorem _search_some {F : Type} {i g : State} {fget : F → Option (Node × F)}
    {fadd : Node → F → F} {f0 : F} {fuel c : Nat} {acts : List String}
    (h : _search i g fget fadd f0 fuel = some (c, some acts)) :
    ∃ cl, searchLoop fget fadd g fuel (Node.root i) [] f0
      = some (cl, some acts) := by
  unfold _search _searchFull at h
  cases hsl : searchLoop fget fadd g fuel (Node.root i) [] f0 with
  | none => rw [hsl] at h; exact Option.noConfusion h
  | some r =>
    rw [hsl] at h
    obtain ⟨r1, r2⟩ := r
    obtain ⟨h1, h2⟩ := Prod.mk.injEq .. ▸ Option.some_inj.mp h
    exact ⟨r1, by rw [show r2 = some acts from h2]⟩

/-- Whatever one of the seven strategies returns as an action sequence is
the label list of a path: its reverse replays from the initial state to the
goal state, and every label is one of the four move labels. -/
theorem run_strategy_path {st : Strategy} {i g : State} {fuel c : Nat}
    {acts : List String}
    (h : run_strategy st i g fuel = some (c, some acts)) :
    replay i acts.reverse = some g
    ∧ (∀ a ∈ acts,
        a ∈ (["Up;", "Left;", "Down;", "Right;"] : List String)) := by
  have hempty : AllNodes (NodeOK i) [] := by intro n hn; simp at hn
  have hentries : AllEntries (NodeOK i) [] := by intro e he; simp at he
  have hdl : AllDL (NodeOK i) ⟨[], [], 1⟩ := ⟨hempty, hempty⟩
  cases st
  case DFS =>
    simp only [run_strategy] at h
    unfold depth_first at h
    obtain ⟨cl, hsl⟩ := _search_some h
    have hr := searchLoop_path (NodeOK i) (AllNodes (NodeOK i))
      (fun f n f' hf hg => listPop_all hf hg)
      (fun f n hf hn => listAppend_all hf hn)
      (fun cur hcur a s' ha happ => nodeOK_child hcur ha happ)
      fuel (Node.root i) [] cl [] acts (nodeOK_root i) hempty hsl
    obtain ⟨n, hn, hstate, rfl⟩ := hr
    exact ⟨by rw [hn.1, hstate], hn.2.1⟩
  case BFS =>
    simp only [run_strategy] at h
    unfold breadth_first at h
    obtain ⟨cl, hsl⟩ := _search_some h
    have hr := searchLoop_path (NodeOK i) (AllNodes (NodeOK i))
      (fun f n f' hf hg => dequePopLeft_all hf hg)
      (fun f n hf hn => listAppend_all hf hn)
      (fun cur hcur a s' ha happ => nodeOK_child hcur ha happ)
      fuel (Node.root i) [] cl [] acts (nodeOK_root i) hempty hsl
    obtain ⟨n, hn, hstate, rfl⟩ := hr
    exact ⟨by rw [hn.1, hstate], hn.2.1⟩
  case GBFS =>
    simp only [run_strategy] at h
    unfold greedy_best_first at h
    obtain ⟨cl, hsl⟩ := _search_some h
    have hr := searchLoop_path (NodeOK i) (AllEntries (NodeOK i))
      (fun f n f' hf hg => pqGet_all hf hg)
      (fun f n hf hn => pqAddWith_all hf hn)
      (fun cur hcur a s' ha happ => nodeOK_child hcur ha happ)
      fuel (Node.root i) [] cl [] acts (nodeOK_root i) hentries hsl
    obtain ⟨n, hn, hstate, rfl⟩ := hr
    exact ⟨by rw [hn.1, hstate], hn.2.1⟩
  case AS =>
    simp only [run_strategy] at h
    unfold a_star at h
    obtain ⟨cl, hsl⟩ := _search_some h
    have hr := searchLoop_path (NodeOK i) (AllEntries (NodeOK i))
      (fun f n f' hf hg => pqGet_all hf hg)
      (fun f n hf hn => pqAddWith_all hf hn)
      (fun cur hcur a s' ha happ => nodeOK_child hcur ha happ)
      fuel (Node.root i) [] cl [] acts (nodeOK_root i) hentries hsl
    obtain ⟨n, hn, hstate, rfl⟩ := hr
    exact ⟨by rw [hn.1, hstate], hn.2.1⟩
  case DIJ =>
    simp only [run_strategy] at h
    unfold dijkstra a_star at h
    obtain ⟨cl, hsl⟩ := _search_some h
    have hr := searchLoop_path (NodeOK i) (AllEntries (NodeOK i))
      (fun f n f' hf hg => pqGet_all hf hg)
      (fun f n hf hn => pqAddWith_all hf hn)
      (fun cur hcur a s' ha happ => nodeOK_child hcur ha happ)
      fuel (Node.root i) [] cl [] acts (nodeOK_root i) hentries hsl
    obtain ⟨n, hn, hstate, rfl⟩ := hr
    exact ⟨by rw [hn.1, hstate], hn.2.1⟩
  case DL =>
    simp only [run_strategy] at h
    unfold depth_limited at h
    obtain ⟨cl, hsl⟩ := _search_some h
    have hr := searchLoop_path (NodeOK i) (AllDL (NodeOK i))
      (fun f n f' hf hg => dlGet_all hf hg)
      (fun f n hf hn => dlAdd_all hf hn)
      (fun cur hcur a s' ha happ => nodeOK_child hcur ha happ)
      fuel (Node.root i) [] cl ⟨[], [], 1⟩ acts (nodeOK_root i) hdl hsl
    obtain ⟨n, hn, hstate, rfl⟩ := hr
    exact ⟨by rw [hn.1, hstate], hn.2.1⟩
  case HC =>
    simp only [run_strategy] at h
    unfold hill_climb hill_climb_tol at h
    obtain ⟨cl, hsl⟩ := _search_some h
    have hr := searchLoop_path (NodeOK i) (AllEntries (NodeOK i))
      (fun f n f' hf hg => pqGet_all hf hg)
      (fun f n hf hn => hcAdd_all hf hn)
      (fun cur hcur a s' ha happ => nodeOK_child hcur ha happ)
      fuel (Node.root i) [] cl [] acts (nodeOK_root i) hentries hsl
    obtain ⟨n, hn, hstate, rfl⟩ := hr
    exact ⟨by rw [hn.1, hstate], hn.2.1⟩

/-- C1 (amended): for every strategy, a returned action sequence is ordered
from goal to initial (reconstruct_actions does not reverse the parent walk);
replaying its REVERSE with the Move Generator from initial_state produces
exactly goal_state. -/
theorem claim_C1 (st : Strategy) (i g : State) (fuel c : Nat)
    (acts : List String)
    (h : run_strategy st i g fuel = some (c, some acts)) :
    replay i acts.reverse = some g :=
  (run_strategy_path h).1

/-- C1 witness: the concrete breadth-first run of the counterexample,
replayed in reverse. -/
theorem claim_C1_witness :
    replay [["0", "2"], ["1", "3"]] (["Down;", "Right;"].reverse)
      = some [["1", "2"], ["3", "0"]] :=
  claim_C1 Strategy.BFS [["0", "2"], ["1", "3"]] [["1", "2"], ["3", "0"]]
    100 4 ["Down;", "Right;"] (by rfl)

/-- C2 (amended): every element of a returned action sequence is one of the
four labels "Up;", "Left;", "Down;", "Right;": the ";" display separator is
part of the label itself (main.py prints the labels with no separator of its
own). -/
theorem claim_C2 (st : Strategy) (i g : State) (fuel c : Nat)
    (acts : List String)
    (h : run_strategy st i g fuel = some (c, some acts)) :
    ∀ a ∈ acts, a ∈ (["Up;", "Left;", "Down;", "Right;"] : List String) :=
  (run_strategy_path h).2

/-- C2 witness: the labels of the concrete breadth-first run. -/
theorem claim_C2_witness :
    "Down;" ∈ (["Up;", "Left;", "Down;", "Right;"] : List String)
    ∧ "Right;" ∈ (["Up;", "Left;", "Down;", "Right;"] : List String) :=
  ⟨claim_C2 Strategy.BFS [["0", "2"], ["1", "3"]] [["1", "2"], ["3", "0"]]
      100 4 ["Down;", "Right;"] (by rfl) "Down;" (by simp),
    claim_C2 Strategy.BFS [["0", "2"], ["1", "3"]] [["1", "2"], ["3", "0"]]
      100 4 ["Down;", "Right;"] (by rfl) "Right;" (by simp)⟩

/-- C6 (amended): a successor state that is already in the closed set when
its parent is expanded is never handed to the frontier (the closed-set test
guards every insertion); re-expansion is nonetheless possible, because a
state can enter the frontier twice before its first expansion, so the
closed set may contain duplicates and its size counts expansions, not
distinct states (see the counterexample). -/
theorem claim_C6 {F : Type} (fadd : Node → F → F) (closed : List State)
    (cur : Node) (f : F) (s' : State) (a : String) (h : s' ∈ closed) :
    open_set_add_if_new fadd closed cur f (some s') a = f := by
  unfold open_set_add_if_new _state_is_valid
  simp [h]

/-- C6 witness: a concrete guarded insertion that is dropped. -/
theorem claim_C6_witness :
    open_set_add_if_new listAppend [[["0"]]] (Node.root [["0"]])
      ([] : List Node) (some [["0"]]) "Up;" = [] :=
  claim_C6 listAppend [[["0"]]] (Node.root [["0"]]) [] [["0"]] "Up;"
    (by simp)

/-! # The Manhattan heuristic rises by at most 2 per move (toward C8) -/

theorem offset_dist {x y : Nat} {dx dy : Int} {len hgt : Nat}
    (hδ : (dx, dy) ∈ [((0 : Int), (-1 : Int)), (-1, 0), (0, 1), (1, 0)])
    (hin : ¬ ((x : Int) + dx < 0 ∨ (len : Int) ≤ (x : Int) + dx
        ∨ (y : Int) + dy < 0 ∨ (hgt : Int) ≤ (y : Int) + dy)) :
    natDist ((x : Int) + dx).toNat x + natDist ((y : Int) + dy).toNat y
      = 1 := by
  simp only [List.mem_cons, List.mem_singleton, Prod.mk.injEq] at hδ
  unfold natDist
  rcases hδ with ⟨rfl, rfl⟩ | ⟨rfl, rfl⟩ | ⟨rfl, rfl⟩ | ⟨⟨rfl, rfl⟩ | h⟩
  · omega
  · omega
  · omega
  · omega
  · simp at h

/-- Full characterization of a successful _move on a rectangular grid: the
blank at (x, y) and the adjacent target at (x2, y2) swap, everything else
stays. -/
theorem move_char {s s' : State} {hgt : Nat} {dx dy : Int}
    (hrect : ∀ c ∈ s, c.length = hgt)
    (hδ : (dx, dy) ∈ [((0 : Int), (-1 : Int)), (-1, 0), (0, 1), (1, 0)])
    (h : _move s (dx, dy) = some s') :
    ∃ x y x2 y2 : Nat,
      x < s.length ∧ y < hgt ∧ x2 < s.length ∧ y2 < hgt
      ∧ ¬ (x2 = x ∧ y2 = y)
      ∧ natDist x2 x + natDist y2 y = 1
      ∧ coords_of_tile s "0" = some (x, y)
      ∧ get2 s x y = "0"
      ∧ s'.length = s.length
      ∧ (∀ c ∈ s', c.length = hgt)
      ∧ (∀ i j, i < s.length → j < hgt →
          get2 s' i j = if i = x ∧ j = y then get2 s x2 y2
            else if i = x2 ∧ j = y2 then "0" else get2 s i j) := by
  obtain ⟨x, y, hc, hin, rfl⟩ := move_eq_some_parts h
  obtain ⟨hxlt, hylt, hat⟩ := coords_of_tile_spec hc
  have hnil : s ≠ [] := by
    rintro rfl
    simp [coords_of_tile, coordsAux] at hc
  have hhead : (s.headD []).length = hgt := headD_length hrect hnil
  rw [hhead] at hin
  have hylt' : y < hgt := by rwa [getD_col_length hrect hxlt] at hylt
  have hx2 : ((x : Int) + dx).toNat < s.length := by omega
  have hy2 : ((y : Int) + dy).toNat < hgt := by omega
  have hne2 := offset_ne hδ hin
  have hrect1 := rect_set2 hrect hxlt y
    (get2 s ((x : Int) + dx).toNat ((y : Int) + dy).toNat)
  refine ⟨x, y, _, _, hxlt, hylt', hx2, hy2, hne2, offset_dist hδ hin, hc,
    hat, by rw [length_set2, length_set2], ?_, ?_⟩
  · intro c hcmem
    refine rect_set2 hrect1 ?_ _ _ c hcmem
    rw [length_set2]; exact hx2
  · intro i j hi hj
    rw [get2_set2 (by rw [length_set2]; exact hx2)
      (by rw [getD_col_length hrect1 (by rw [length_set2]; exact hx2)]
          exact hy2),
      get2_set2 hxlt hylt]
    rw [hat]
    split_ifs <;> first | rfl | exact absurd ⟨by omega, by omega⟩ hne2

theorem getD_nodup_inj {l : List String} (hnd : l.Nodup) {i j : Nat}
    (hi : i < l.length) (hj : j < l.length)
    (he : l.getD i "" = l.getD j "") : i = j := by
  rw [List.getD_eq_getElem?_getD, List.getElem?_eq_getElem hi,
    List.getD_eq_getElem?_getD, List.getElem?_eq_getElem hj] at he
  simp only [Option.getD_some] at he
  exact (hnd.getElem_inj_iff).mp he

theorem grid_index_inj {x y x2 y2 hgt : Nat} (hy : y < hgt)
    (hy2 : y2 < hgt) (h : x2 * hgt + y2 = x * hgt + y) :
    x2 = x ∧ y2 = y := by
  by_contra hc
  exact grid_index_ne hy hy2 hc h

theorem get2_mem {s : State} {hgt : Nat} (hrect : ∀ c ∈ s, c.length = hgt)
    {x y : Nat} (hx : x < s.length) (hy : y < hgt) :
    get2 s x y ∈ s.flatten := by
  rw [get2_flatten hrect hx hy, List.getD_eq_getElem?_getD,
    List.getElem?_eq_getElem
      (by rw [flatten_length_rect hrect]; exact grid_index_lt hx hy)]
  exact List.getElem_mem _

/-- On a duplicate-free rectangular grid, coords_of_tile finds exactly the
cell holding the tile. -/
theorem coords_of_tile_unique {s : State} {hgt : Nat}
    (hrect : ∀ c ∈ s, c.length = hgt) (hnd : s.flatten.Nodup)
    {t : String} {x y : Nat} (hx : x < s.length) (hy : y < hgt)
    (hget : get2 s x y = t) : coords_of_tile s t = some (x, y) := by
  have hlen := flatten_length_rect hrect
  have hmem : t ∈ s.flatten := hget ▸ get2_mem hrect hx hy
  obtain ⟨p, hp⟩ := coords_of_tile_mem hmem
  obtain ⟨x', y'⟩ := p
  obtain ⟨hx', hy', hget'⟩ := coords_of_tile_spec hp
  have hy'' : y' < hgt := by rwa [getD_col_length hrect hx'] at hy'
  have hidx : x' * hgt + y' = x * hgt + y := by
    apply getD_nodup_inj hnd (by rw [hlen]; exact grid_index_lt hx' hy'')
      (by rw [hlen]; exact grid_index_lt hx hy)
    rw [← get2_flatten hrect hx' hy'', ← get2_flatten hrect hx hy, hget',
      hget]
  obtain ⟨h1, h2⟩ := grid_index_inj hy hy'' hidx
  rw [h1, h2] at hp
  exact hp

/-! ## Sums of per-tile distances -/

theorem map_sum_congr {l : List String} {f f' : String → Nat}
    (h : ∀ t ∈ l, f' t = f t) : (l.map f').sum = (l.map f).sum := by
  induction l with
  | nil => rfl
  | cons t ts ih =>
    simp only [List.map_cons, List.sum_cons]
    rw [h t (by simp), ih (fun u hu => h u (by simp [hu]))]

theorem map_sum_one_exception {l : List String} {f f' : String → Nat}
    {b : String} (hother : ∀ t ∈ l, t ≠ b → f' t = f t)
    (hb : f' b ≤ f b + 1) (hcount : l.count b ≤ 1) :
    (l.map f').sum ≤ (l.map f).sum + 1 := by
  induction l with
  | nil => simp
  | cons t ts ih =>
    simp only [List.map_cons, List.sum_cons]
    by_cases ht : t = b
    · subst ht
      have hzero : ts.count t = 0 := by
        rw [List.count_cons_self] at hcount; omega
      have hno : t ∉ ts := List.count_eq_zero.mp hzero
      have heq : (ts.map f').sum = (ts.map f).sum :=
        map_sum_congr
          (fun u hu => hother u (by simp [hu]) (fun he => hno (he ▸ hu)))
      omega
    · have hf := hother t (by simp) ht
      have hrec := ih (fun u hu hub => hother u (by simp [hu]) hub)
        (by rwa [List.count_cons_of_ne (fun he => ht he.symm)] at hcount)
      omega

theorem map_sum_two_exceptions {l : List String} {f f' : String → Nat}
    {a b : String} (hab : a ≠ b)
    (hother : ∀ t ∈ l, t ≠ a → t ≠ b → f' t = f t)
    (ha : f' a ≤ f a + 1) (hb : f' b ≤ f b + 1)
    (hca : l.count a ≤ 1) (hcb : l.count b ≤ 1) :
    (l.map f').sum ≤ (l.map f).sum + 2 := by
  induction l with
  | nil => simp
  | cons t ts ih =>
    simp only [List.map_cons, List.sum_cons]
    by_cases hta : t = a
    · subst hta
      have hzero : ts.count t = 0 := by
        rw [List.count_cons_self] at hca; omega
      have hno : t ∉ ts := List.count_eq_zero.mp hzero
      have hone : (ts.map f').sum ≤ (ts.map f).sum + 1 :=
        map_sum_one_exception
          (fun u hu hub =>
            hother u (by simp [hu]) (fun he => hno (he ▸ hu)) hub)
          hb (by rwa [List.count_cons_of_ne (Ne.symm hab)] at hcb)
      omega
    · by_cases htb : t = b
      · subst htb
        have hzero : ts.count t = 0 := by
          rw [List.count_cons_self] at hcb; omega
        have hno : t ∉ ts := List.count_eq_zero.mp hzero
        have hone : (ts.map f').sum ≤ (ts.map f).sum + 1 :=
          map_sum_one_exception
            (fun u hu hub =>
              hother u (by simp [hu]) hub (fun he => hno (he ▸ hu)))
            ha (by rwa [List.count_cons_of_ne hab] at hca)
        omega
      · have hf := hother t (by simp) hta htb
        have hrec := ih (fun u hu => hother u (by simp [hu]))
          (by rwa [List.count_cons_of_ne (fun he => hta he.symm)] at hca)
          (by rwa [List.count_cons_of_ne (fun he => htb he.symm)] at hcb)
        omega

theorem tileDistance_isSome {cur des : State} {t : String}
    (h1 : t ∈ cur.flatten) (h2 : t ∈ des.flatten) :
    (tileDistance cur des t).isSome := by
  obtain ⟨p, hp⟩ := coords_of_tile_mem h1
  obtain ⟨q, hq⟩ := coords_of_tile_mem h2
  simp [tileDistance, hp, hq]

theorem manhattanList_eq_sum {cur des : State} {l : List String}
    (h : ∀ t ∈ l, (tileDistance cur des t).isSome) :
    manhattanList cur des l
      = some ((l.map (fun t => (tileDistance cur des t).getD 0)).sum) := by
  induction l with
  | nil => rfl
  | cons t ts ih =>
    obtain ⟨d, hd⟩ := Option.isSome_iff_exists.mp (h t (by simp))
    have h2 := ih (fun u hu => h u (by simp [hu]))
    simp [manhattanList, hd, h2]

/-- One move changes the blank-inclusive Manhattan heuristic by at most +2:
the blank and the swapped tile each travel one cell. -/
theorem manhattanH_move_le {i g s s' : State} {hgt : Nat} {dx dy : Int}
    (hrect : ∀ c ∈ s, c.length = hgt)
    (hperm : s.flatten.Perm i.flatten) (hnd : i.flatten.Nodup)
    (hgperm : g.flatten.Perm i.flatten)
    (hδ : (dx, dy) ∈ [((0 : Int), (-1 : Int)), (-1, 0), (0, 1), (1, 0)])
    (hmv : _move s (dx, dy) = some s') :
    manhattanH s' g ≤ manhattanH s g + 2 := by
  obtain ⟨x, y, x2, y2, hx, hy, hx2, hy2, hne, hdist, hc0, hat, hlen',
    hrect', hpt⟩ := move_char hrect hδ hmv
  have hnds : s.flatten.Nodup := (hperm.symm).nodup hnd
  have hpermS : s'.flatten.Perm s.flatten := move_perm hrect hδ hmv
  have hnds' : s'.flatten.Nodup := (hpermS.symm).nodup hnds
  have hmem0 : "0" ∈ s.flatten := hat ▸ get2_mem hrect hx hy
  have hmemb : get2 s x2 y2 ∈ s.flatten := get2_mem hrect hx2 hy2
  have hmem_g : ∀ t ∈ s.flatten, t ∈ g.flatten := fun t ht =>
    (hgperm.symm).subset (hperm.subset ht)
  have hab : "0" ≠ get2 s x2 y2 := by
    intro he
    have hu := coords_of_tile_unique hrect hnds hx2 hy2 he.symm
    rw [hc0] at hu
    obtain ⟨h1, h2⟩ := Prod.mk.injEq .. ▸ Option.some_inj.mp hu
    exact hne ⟨h1.symm, h2.symm⟩
  have hca' : coords_of_tile s' "0" = some (x2, y2) := by
    apply coords_of_tile_unique hrect' hnds' (by rw [hlen']; exact hx2) hy2
    rw [hpt x2 y2 hx2 hy2, if_neg hne, if_pos ⟨rfl, rfl⟩]
  have hcb' : coords_of_tile s' (get2 s x2 y2) = some (x, y) := by
    apply coords_of_tile_unique hrect' hnds' (by rw [hlen']; exact hx) hy
    rw [hpt x y hx hy, if_pos ⟨rfl, rfl⟩]
  have hcb : coords_of_tile s (get2 s x2 y2) = some (x2, y2) :=
    coords_of_tile_unique hrect hnds hx2 hy2 rfl
  have hother : ∀ t ∈ s.flatten, t ≠ "0" → t ≠ get2 s x2 y2 →
      coords_of_tile s' t = coords_of_tile s t := by
    intro t htm hta htb
    obtain ⟨p, hp⟩ := coords_of_tile_mem htm
    obtain ⟨xt, yt⟩ := p
    obtain ⟨hxt, hyt, hgt2⟩ := coords_of_tile_spec hp
    have hyt' : yt < hgt := by rwa [getD_col_length hrect hxt] at hyt
    rw [hp]
    apply coords_of_tile_unique hrect' hnds' (by rw [hlen']; exact hxt) hyt'
    have hn1 : ¬ (xt = x ∧ yt = y) := by
      intro hk
      exact hta (by rw [← hgt2, hk.1, hk.2]; exact hat)
    have hn2 : ¬ (xt = x2 ∧ yt = y2) := by
      intro hk
      exact htb (by rw [← hgt2, hk.1, hk.2])
    rw [hpt xt yt hxt hyt', if_neg hn1, if_neg hn2]
    exact hgt2
  have hsomeS : ∀ t ∈ s.flatten, (tileDistance s g t).isSome :=
    fun t ht => tileDistance_isSome ht (hmem_g t ht)
  have hsomeS' : ∀ t ∈ s'.flatten, (tileDistance s' g t).isSome :=
    fun t ht => tileDistance_isSome ht (hmem_g t (hpermS.subset ht))
  rw [manhattanH, manhattanH, manhattan_distance, manhattan_distance,
    manhattanList_eq_sum hsomeS', manhattanList_eq_sum hsomeS,
    Option.getD_some, Option.getD_some]
  have hswitch :
      (s'.flatten.map (fun t => (tileDistance s' g t).getD 0)).sum
      = (s.flatten.map (fun t => (tileDistance s' g t).getD 0)).sum :=
    (hpermS.map _).sum_eq
  rw [hswitch]
  obtain ⟨pg0, hg0⟩ := coords_of_tile_mem (hmem_g _ hmem0)
  obtain ⟨pgb, hgb⟩ := coords_of_tile_mem (hmem_g _ hmemb)
  refine map_sum_two_exceptions hab ?_ ?_ ?_ ?_ ?_
  · intro t ht hta htb
    simp [tileDistance, hother t ht hta htb]
  · obtain ⟨gx, gy⟩ := pg0
    have e1 : tileDistance s' g "0"
        = some (natDist x2 gx + natDist y2 gy) := by
      simp [tileDistance, hca', hg0]
    have e2 : tileDistance s g "0"
        = some (natDist x gx + natDist y gy) := by
      simp [tileDistance, hc0, hg0]
    rw [e1, e2, Option.getD_some, Option.getD_some]
    unfold natDist at hdist ⊢
    omega
  · obtain ⟨gx, gy⟩ := pgb
    have e1 : tileDistance s' g (get2 s x2 y2)
        = some (natDist x gx + natDist y gy) := by
      simp [tileDistance, hcb', hgb]
    have e2 : tileDistance s g (get2 s x2 y2)
        = some (natDist x2 gx + natDist y2 gy) := by
      simp [tileDistance, hcb, hgb]
    rw [e1, e2, Option.getD_some, Option.getD_some]
    unfold natDist at hdist ⊢
    omega
  · exact Nat.le_of_eq (List.count_eq_one_of_mem hnds hmem0)
  · exact Nat.le_of_eq (List.count_eq_one_of_mem hnds hmemb)

/-! # Hill-climb with tolerance at least 3 is exactly a_star (C8) -/

/-- Well-formedness carried by every node of one search run: rectangular
state whose cells are a permutation of the initial state's cells. -/
def GoodNode (i : State) (hgt : Nat) (n : Node) : Prop :=
  (∀ c ∈ n.state, c.length = hgt) ∧ n.state.flatten.Perm i.flatten

theorem apply_action_move {cur : State} {a : String} {s' : State}
    (ha : a ∈ (["Up;", "Left;", "Down;", "Right;"] : List String))
    (happ : apply_action cur a = some s') :
    ∃ dx dy : Int,
      (dx, dy) ∈ [((0 : Int), (-1 : Int)), (-1, 0), (0, 1), (1, 0)]
      ∧ _move cur (dx, dy) = some s' := by
  simp only [List.mem_cons, List.not_mem_nil, or_false] at ha
  rcases ha with rfl | rfl | rfl | rfl
  · exact ⟨0, -1, by simp, by rwa [apply_action_up] at happ⟩
  · exact ⟨-1, 0, by simp, by rwa [apply_action_left] at happ⟩
  · exact ⟨0, 1, by simp, by rwa [apply_action_down] at happ⟩
  · exact ⟨1, 0, by simp, by rwa [apply_action_right] at happ⟩

theorem goodNode_child {i : State} {hgt : Nat} {cur : Node}
    (hcur : GoodNode i hgt cur) {a : String} {s' : State}
    (ha : a ∈ (["Up;", "Left;", "Down;", "Right;"] : List String))
    (happ : apply_action cur.state a = some s') :
    GoodNode i hgt (Node.child s' cur a) := by
  obtain ⟨dx, dy, hδ, hmv⟩ := apply_action_move ha happ
  obtain ⟨x, y, x2, y2, hx, hy, hx2, hy2, hne, hdist, hc0, hat, hlen',
    hrect', hpt⟩ := move_char hcur.1 hδ hmv
  exact ⟨hrect', (move_perm hcur.1 hδ hmv).trans hcur.2⟩

theorem hcAdd_eq_pqAdd {i g : State} {hgt t : Nat} (ht : 3 ≤ t)
    (hnd : i.flatten.Nodup) (hgperm : g.flatten.Perm i.flatten)
    {cur : Node} (hcur : GoodNode i hgt cur) {s' : State} {a : String}
    (ha : a ∈ (["Up;", "Left;", "Down;", "Right;"] : List String))
    (happ : apply_action cur.state a = some s') (hp : List Entry) :
    hcAdd manhattanH g t (Node.child s' cur a) hp
      = pqAddWith (fun n => n.num_parents + manhattanH n.state g)
          (Node.child s' cur a) hp := by
  obtain ⟨dx, dy, hδ, hmv⟩ := apply_action_move ha happ
  have hle : manhattanH s' g ≤ manhattanH cur.state g + 2 :=
    manhattanH_move_le hcur.1 hcur.2 hnd hgperm hδ hmv
  show (if cur.num_parents + 1 + manhattanH s' g
      > cur.num_parents + manhattanH cur.state g + t then hp
    else heappush hp
      (cur.num_parents + 1 + manhattanH s' g, Node.child s' cur a)) = _
  rw [if_neg (by omega)]
  rfl

theorem addIfNew_congr {F : Type} {fadd1 fadd2 : Node → F → F}
    {closed : List State} {cur : Node} {f : F} {succ : Option State}
    {a : String}
    (h : ∀ s' f', succ = some s' →
      fadd1 (Node.child s' cur a) f' = fadd2 (Node.child s' cur a) f') :
    open_set_add_if_new fadd1 closed cur f succ a
      = open_set_add_if_new fadd2 closed cur f succ a := by
  unfold open_set_add_if_new
  split
  · rename_i hguard
    cases succ with
    | none => simp [_state_is_valid] at hguard
    | some s' => exact h s' f rfl
  · rfl

theorem searchLoop_hc_astar {i g : State} {hgt t : Nat} (ht : 3 ≤ t)
    (hnd : i.flatten.Nodup) (hgperm : g.flatten.Perm i.flatten) :
    ∀ (fuel : Nat) (cur : Node) (closed : List State) (f : List Entry),
      GoodNode i hgt cur → AllEntries (GoodNode i hgt) f →
      searchLoop pqGet (hcAdd manhattanH g t) g fuel cur closed f
        = searchLoop pqGet
            (pqAddWith (fun n => n.num_parents + manhattanH n.state g))
            g fuel cur closed f := by
  intro fuel
  induction fuel with
  | zero => intro cur closed f _ _; rfl
  | succ fuel ih =>
    intro cur closed f hcur hall
    rw [searchLoop, searchLoop]
    by_cases hgoal : cur.state = g
    · rw [if_pos hgoal, if_pos hgoal]
    · rw [if_neg hgoal, if_neg hgoal]
      have hadds : addSuccessors (hcAdd manhattanH g t)
            (insort cur.state closed) cur f
          = addSuccessors
              (pqAddWith (fun n => n.num_parents + manhattanH n.state g))
              (insort cur.state closed) cur f := by
        unfold addSuccessors
        rw [addIfNew_congr (fun s' f' hs' =>
          hcAdd_eq_pqAdd ht hnd hgperm hcur (by simp)
            (by rw [apply_action_right]; exact hs') f')]
        rw [addIfNew_congr (fun s' f' hs' =>
          hcAdd_eq_pqAdd ht hnd hgperm hcur (by simp)
            (by rw [apply_action_down]; exact hs') f')]
        rw [addIfNew_congr (fun s' f' hs' =>
          hcAdd_eq_pqAdd ht hnd hgperm hcur (by simp)
            (by rw [apply_action_left]; exact hs') f')]
        rw [addIfNew_congr (fun s' f' hs' =>
          hcAdd_eq_pqAdd ht hnd hgperm hcur (by simp)
            (by rw [apply_action_up]; exact hs') f')]
      rw [hadds]
      have hall4 : AllEntries (GoodNode i hgt)
          (addSuccessors
            (pqAddWith (fun n => n.num_parents + manhattanH n.state g))
            (insort cur.state closed) cur f) :=
        addSuccessors_inv (fun f n hf hn => pqAddWith_all hf hn)
          (fun a s' ha happ => goodNode_child hcur ha happ) hall _
      cases hfg : pqGet (addSuccessors
          (pqAddWith (fun n => n.num_parents + manhattanH n.state g))
          (insort cur.state closed) cur f) with
      | none => rfl
      | some r =>
        obtain ⟨n, f'⟩ := r
        obtain ⟨hn, hf'⟩ := pqGet_all hall4 hfg
        exact ih n (insort cur.state closed) f' hn hf'

/-- C8 (amended): hill-climb is equivalent to A* (same result on every
instance and fuel, hence same expanded count and same action sequence) once
the backtracking tolerance is at least 3 = 1 + the heuristic's maximum
per-move increase: the node priority is depth + heuristic, the depth rises
by exactly 1 per move, and the blank-inclusive Manhattan heuristic rises by
at most 2 per move.  At the source's tolerance 2 a successor whose
heuristic rises by 2 is rejected and the equivalence fails (see the
counterexample). -/
theorem claim_C8 (t : Nat) (ht : 3 ≤ t) (i g : State) (hgt fuel : Nat)
    (hrect : ∀ c ∈ i, c.length = hgt) (hnd : i.flatten.Nodup)
    (hgperm : g.flatten.Perm i.flatten) :
    hill_climb_tol t i g manhattanH fuel = a_star i g manhattanH fuel := by
  unfold hill_climb_tol a_star _search _searchFull
  rw [searchLoop_hc_astar ht hnd hgperm fuel (Node.root i) [] []
    ⟨hrect, List.Perm.refl _⟩ (fun e he => absurd he (List.not_mem_nil e))]

/-- C8 witness: with tolerance 3 the hill climb solves the instance that
tolerance 2 abandons, exactly as a_star does. -/
theorem claim_C8_witness :
    hill_climb_tol 3 [["0", "1", "2"], ["3", "4", "5"]]
        [["0", "1", "5"], ["3", "2", "4"]] manhattanH 100
      = a_star [["0", "1", "2"], ["3", "4", "5"]]
          [["0", "1", "5"], ["3", "2", "4"]] manhattanH 100 :=
  claim_C8 3 (by decide) [["0", "1", "2"], ["3", "4", "5"]]
    [["0", "1", "5"], ["3", "2", "4"]] 3 100 (by decide) (by decide)
    (by decide)

/-! # Multiset behaviour of the heapq operations (toward C3) -/

theorem set_getD_self {α : Type} (l : List α) (i : Nat) (d : α)
    (h : i < l.length) : l.set i (l.getD i d) = l := by
  apply List.ext_getElem?
  intro n
  by_cases hn : n = i
  · subst hn
    rw [List.getElem?_set_self h]
    rw [List.getD_eq_getElem?_getD, List.getElem?_eq_getElem h]
    simp
  · rw [List.getElem?_set_ne (Ne.symm hn)]

theorem pickChild_gt {heap : List Entry} {endpos pos : Nat} :
    pos < pickChild heap endpos pos := by
  unfold pickChild
  split <;> omega

/-- Writing a copy of the q-th element over position p and then overwriting
position q leaves the same multiset as overwriting position p directly. -/
theorem set_copy_perm {α : Type} [DecidableEq α] {l : List α} (d : α)
    {p q : Nat} (hp : p < l.length) (hq : q < l.length) (hne : p ≠ q)
    (v : α) :
    ((l.set p (l.getD q d)).set q v).Perm (l.set p v) := by
  apply List.perm_iff_count.mpr
  intro t
  have h1 := count_set_aux t v d (l.set p (l.getD q d)) q (by simpa using hq)
  have h2 := count_set_aux t (l.getD q d) d l p hp
  have h3 := count_set_aux t v d l p hp
  have h4 : (l.set p (l.getD q d)).getD q d = l.getD q d := by
    simp [List.getElem?_set_ne hne]
  rw [h4] at h1
  split_ifs at h1 h2 h3 <;> omega

theorem perm_siftdownLoop {newitem : Entry} {startpos : Nat} :
    ∀ {fuel : Nat} {heap : List Entry} {pos : Nat}, pos < heap.length →
    (siftdownLoop fuel heap newitem startpos pos).Perm
      (heap.set pos newitem) := by
  intro fuel
  induction fuel with
  | zero =>
    intro heap pos _
    rw [siftdownLoop]
  | succ fuel ih =>
    intro heap pos hpos
    rw [siftdownLoop]
    split
    · rename_i hsp
      split
      · have hplt : (pos - 1) / 2
            < (heap.set pos (heapGet heap ((pos - 1) / 2))).length := by
          rw [List.length_set]; omega
        refine (ih hplt).trans ?_
        exact set_copy_perm (0, Node.root []) hpos (by omega) (by omega)
          newitem
      · exact List.Perm.refl _
    · exact List.Perm.refl _

theorem perm_heappush (heap : List Entry) (item : Entry) :
    (heappush heap item).Perm (item :: heap) := by
  unfold heappush _siftdown
  have hlen : heap.length < (heap ++ [item]).length := by simp
  have hget : heapGet (heap ++ [item]) heap.length = item := by
    unfold heapGet
    simp [List.getElem?_append_right (Nat.le_refl _)]
  rw [hget]
  refine (perm_siftdownLoop hlen).trans ?_
  have hset := set_getD_self (heap ++ [item]) heap.length (0, Node.root [])
    hlen
  rw [show (heap ++ [item]).getD heap.length (0, Node.root []) = item
    from hget] at hset
  rw [hset]
  exact List.perm_append_singleton item heap

theorem perm_siftupLoop {endpos : Nat} (v : Entry) :
    ∀ {fuel : Nat} {heap : List Entry} {pos : Nat}, pos < heap.length →
    endpos ≤ heap.length →
    ((siftupLoop fuel heap endpos pos).1.set
      (siftupLoop fuel heap endpos pos).2 v).Perm (heap.set pos v) := by
  intro fuel
  induction fuel with
  | zero =>
    intro heap pos _ _
    rw [siftupLoop]
  | succ fuel ih =>
    intro heap pos hpos hend
    rw [siftupLoop]
    split
    · rename_i hcp
      have hc : pickChild heap endpos pos < heap.length :=
        Nat.lt_of_lt_of_le (pickChild_lt hcp) hend
      have h1 := @ih (heap.set pos (heapGet heap (pickChild heap endpos pos)))
        (pickChild heap endpos pos) (by rw [List.length_set]; exact hc)
        (by rw [List.length_set]; exact hend)
      refine h1.trans ?_
      exact set_copy_perm (0, Node.root []) hpos hc
        (Nat.ne_of_lt pickChild_gt) v
    · exact List.Perm.refl _

theorem perm_siftup {heap : List Entry} {pos : Nat}
    (hpos : pos < heap.length) : (_siftup heap pos).Perm heap := by
  unfold _siftup _siftdown
  have hlen : (siftupLoop heap.length heap heap.length pos).1.length
      = heap.length := siftupLoop_length
  have hp2 : (siftupLoop heap.length heap heap.length pos).2 < heap.length :=
    siftupLoop_pos_lt hpos
  have hget : heapGet ((siftupLoop heap.length heap heap.length pos).1.set
      (siftupLoop heap.length heap heap.length pos).2 (heapGet heap pos))
      (siftupLoop heap.length heap heap.length pos).2 = heapGet heap pos := by
    unfold heapGet
    simp [List.getElem?_set_self (by rw [hlen]; exact hp2)]
  rw [hget]
  have hplen : (siftupLoop heap.length heap heap.length pos).2
      < ((siftupLoop heap.length heap heap.length pos).1.set
        (siftupLoop heap.length heap heap.length pos).2
        (heapGet heap pos)).length := by
    rw [List.length_set, hlen]; exact hp2
  refine (perm_siftdownLoop hplen).trans ?_
  rw [List.set_set]
  refine (perm_siftupLoop (heapGet heap pos) hpos (Nat.le_refl _)).trans ?_
  unfold heapGet
  rw [set_getD_self heap pos _ hpos]

theorem heapGet_set {heap : List Entry} {p : Nat} (v : Entry) (k : Nat)
    (hp : p < heap.length) :
    heapGet (heap.set p v) k = if k = p then v else heapGet heap k := by
  unfold heapGet
  by_cases hk : k = p
  · subst hk
    rw [if_pos rfl, List.getD_eq_getElem?_getD, List.getElem?_set_self hp]
    rfl
  · rw [if_neg hk, List.getD_eq_getElem?_getD,
      List.getElem?_set_ne (Ne.symm hk), ← List.getD_eq_getElem?_getD]

theorem heapGet_append {heap : List Entry} (l : List Entry) {k : Nat}
    (hk : k < heap.length) : heapGet (heap ++ l) k = heapGet heap k := by
  unfold heapGet
  rw [List.getD_eq_getElem?_getD, List.getElem?_append_left hk,
    ← List.getD_eq_getElem?_getD]

theorem heapGet_dropLast {heap : List Entry} {k : Nat}
    (hk : k < heap.dropLast.length) :
    heapGet heap.dropLast k = heapGet heap k := by
  have hk2 : k < heap.length := by
    rw [List.length_dropLast] at hk; omega
  unfold heapGet
  rw [List.getD_eq_getElem?_getD, List.getD_eq_getElem?_getD,
    List.getElem?_eq_getElem hk, List.getElem?_eq_getElem hk2]
  simp [List.getElem_dropLast]

theorem perm_heappop {heap h' : List Entry} {e : Entry}
    (h : heappop heap = some (e, h')) : heap.Perm (e :: h') := by
  unfold heappop at h
  split at h
  · exact Option.noConfusion h
  · rename_i lastelt hl
    have hne : heap ≠ [] := by
      intro he; rw [he] at hl; exact Option.noConfusion hl
    have hlast : heap.getLast hne = lastelt := by
      rw [List.getLast?_eq_getLast heap hne] at hl
      exact Option.some_inj.mp hl
    have heq : heap.dropLast ++ [lastelt] = heap := by
      rw [← hlast]
      exact List.dropLast_append_getLast hne
    split at h
    · rename_i hemp
      obtain ⟨h1, h2⟩ := Prod.mk.injEq .. ▸ Option.some_inj.mp h
      subst h1; subst h2
      have hd : heap.dropLast = [] := by simpa using hemp
      rw [← heq, hd]
      exact List.Perm.refl _
    · rename_i hemp
      obtain ⟨h1, h2⟩ := Prod.mk.injEq .. ▸ Option.some_inj.mp h
      subst h1; subst h2
      have hne0 : 0 < heap.dropLast.length := by
        cases hd : heap.dropLast with
        | nil => rw [hd] at hemp; simp at hemp
        | cons a as => simp [hd]
      have hperm : (_siftup (heap.dropLast.set 0 lastelt) 0).Perm
          (heap.dropLast.set 0 lastelt) :=
        perm_siftup (by rw [List.length_set]; exact hne0)
      have hmain : heap.Perm
          (heapGet heap.dropLast 0 :: heap.dropLast.set 0 lastelt) := by
        cases hd : heap.dropLast with
        | nil => rw [hd] at hemp; simp at hemp
        | cons a as =>
          show heap.Perm (a :: lastelt :: as)
          rw [← heq, hd]
          simp only [List.cons_append]
          exact List.Perm.cons a (List.perm_append_singleton lastelt as)
      exact hmain.trans (List.Perm.cons _ hperm).symm

/-! # The heapq ordering invariant (toward C3: Dijkstra pops a minimum) -/

/-- The binary-heap ordering of heapq: no entry's priority is below its
parent's. -/
def HeapInv (h : List Entry) : Prop :=
  ∀ j : Nat, 0 < j → j < h.length →
    (heapGet h ((j - 1) / 2)).1 ≤ (heapGet h j).1

/-- Heap ordering everywhere except at the edges touching the hole `p`. -/
def AlmostInv (h : List Entry) (p : Nat) : Prop :=
  ∀ j : Nat, 0 < j → j < h.length → j ≠ p → (j - 1) / 2 ≠ p →
    (heapGet h ((j - 1) / 2)).1 ≤ (heapGet h j).1

/-- The hole's children are bounded below by the hole's parent. -/
def GrandInv (h : List Entry) (p : Nat) : Prop :=
  ∀ j : Nat, 0 < j → j < h.length → (j - 1) / 2 = p → 0 < p →
    (heapGet h ((p - 1) / 2)).1 ≤ (heapGet h j).1

theorem heapGet_eq_getElem {heap : List Entry} {j : Nat}
    (hj : j < heap.length) : heapGet heap j = heap[j] := by
  unfold heapGet
  rw [List.getD_eq_getElem?_getD, List.getElem?_eq_getElem hj]
  rfl

theorem heapInv_root_le {heap : List Entry} (hinv : HeapInv heap) :
    ∀ (k j : Nat), j ≤ k → j < heap.length →
    (heapGet heap 0).1 ≤ (heapGet heap j).1 := by
  intro k
  induction k with
  | zero =>
    intro j hjk hj
    have h0 : j = 0 := by omega
    subst h0
    exact Nat.le_refl _
  | succ k ih =>
    intro j hjk hj
    by_cases h0 : j = 0
    · subst h0; exact Nat.le_refl _
    · exact Nat.le_trans (ih ((j - 1) / 2) (by omega) (by omega))
        (hinv j (by omega) hj)

theorem heapInv_root_min {heap : List Entry} (hinv : HeapInv heap)
    {x : Entry} (hx : x ∈ heap) : (heapGet heap 0).1 ≤ x.1 := by
  obtain ⟨j, hj, rfl⟩ := List.mem_iff_getElem.mp hx
  rw [← heapGet_eq_getElem hj]
  exact heapInv_root_le hinv j j (Nat.le_refl _) hj

theorem heapInv_dropLast {heap : List Entry} (hinv : HeapInv heap) :
    HeapInv heap.dropLast := by
  intro j hj0 hjlen
  have hj2 : j < heap.length := by
    rw [List.length_dropLast] at hjlen; omega
  rw [heapGet_dropLast hjlen, heapGet_dropLast (by
    rw [List.length_dropLast] at hjlen ⊢; omega)]
  exact hinv j hj0 hj2

/-- Bubbling the new item up from the hole restores the full heap ordering,
provided the ordering held everywhere away from the hole, the hole's
children dominated both the hole's parent and the new item.  Runs with
startpos = 0, the only value the embedded calls use. -/
theorem siftdownLoop_heapInv {newitem : Entry} :
    ∀ {fuel : Nat} {heap : List Entry} {pos : Nat},
    pos < heap.length → pos ≤ fuel →
    AlmostInv heap pos → GrandInv heap pos →
    (∀ j : Nat, 0 < j → j < heap.length → (j - 1) / 2 = pos →
      newitem.1 ≤ (heapGet heap j).1) →
    HeapInv (siftdownLoop fuel heap newitem 0 pos) := by
  intro fuel
  induction fuel with
  | zero =>
    intro heap pos hpos hf hA hG h3
    have hp0 : pos = 0 := by omega
    subst hp0
    rw [siftdownLoop]
    intro j hj0 hjlen
    rw [List.length_set] at hjlen
    rw [heapGet_set _ _ hpos, heapGet_set _ _ hpos,
      if_neg (show ¬ j = 0 by omega)]
    by_cases hpj : (j - 1) / 2 = 0
    · rw [if_pos hpj]
      exact h3 j hj0 hjlen hpj
    · rw [if_neg hpj]
      exact hA j hj0 hjlen (by omega) hpj
  | succ fuel ih =>
    intro heap pos hpos hf hA hG h3
    rw [siftdownLoop]
    split
    · rename_i hsp
      split
      · rename_i hlt
        have hltN : newitem.1 < (heapGet heap ((pos - 1) / 2)).1 := by
          simpa [entryLt] using hlt
        have hlen2 : (heap.set pos (heapGet heap ((pos - 1) / 2))).length
            = heap.length := List.length_set ..
        refine ih ?_ ?_ ?_ ?_ ?_
        · rw [hlen2]; omega
        · omega
        · intro j hj0 hjlen hjne hjp
          rw [hlen2] at hjlen
          rw [heapGet_set _ _ hpos, heapGet_set _ _ hpos]
          by_cases hj : j = pos
          · exact absurd (show (j - 1) / 2 = (pos - 1) / 2 by rw [hj]) hjp
          · rw [if_neg hj]
            by_cases hpj : (j - 1) / 2 = pos
            · rw [if_pos hpj]
              exact hG j hj0 hjlen hpj hsp
            · rw [if_neg hpj]
              exact hA j hj0 hjlen hj hpj
        · intro j hj0 hjlen hjp hp2pos
          rw [hlen2] at hjlen
          rw [heapGet_set _ _ hpos, heapGet_set _ _ hpos,
            if_neg (show ¬ ((pos - 1) / 2 - 1) / 2 = pos by omega)]
          by_cases hj : j = pos
          · rw [if_pos hj]
            exact hA ((pos - 1) / 2) hp2pos (by omega) (by omega) (by omega)
          · rw [if_neg hj]
            have h5 := hA j hj0 hjlen hj (by omega)
            rw [hjp] at h5
            exact Nat.le_trans
              (hA ((pos - 1) / 2) hp2pos (by omega) (by omega) (by omega)) h5
        · intro j hj0 hjlen hjp
          rw [hlen2] at hjlen
          rw [heapGet_set _ _ hpos]
          by_cases hj : j = pos
          · rw [if_pos hj]
            exact Nat.le_of_lt hltN
          · rw [if_neg hj]
            have h5 := hA j hj0 hjlen hj (by omega)
            rw [hjp] at h5
            exact Nat.le_trans (Nat.le_of_lt hltN) h5
      · rename_i hlt
        have hge : (heapGet heap ((pos - 1) / 2)).1 ≤ newitem.1 := by
          simp [entryLt] at hlt
          omega
        intro j hj0 hjlen
        rw [List.length_set] at hjlen
        rw [heapGet_set _ _ hpos, heapGet_set _ _ hpos]
        by_cases hj : j = pos
        · rw [if_pos hj, if_neg (show ¬ (j - 1) / 2 = pos by omega), hj]
          exact hge
        · rw [if_neg hj]
          by_cases hpj : (j - 1) / 2 = pos
          · rw [if_pos hpj]
            exact h3 j hj0 hjlen hpj
          · rw [if_neg hpj]
            exact hA j hj0 hjlen hj hpj
    · rename_i hsp
      have hp0 : pos = 0 := by omega
      subst hp0
      intro j hj0 hjlen
      rw [List.length_set] at hjlen
      rw [heapGet_set _ _ hpos, heapGet_set _ _ hpos,
        if_neg (show ¬ j = 0 by omega)]
      by_cases hpj : (j - 1) / 2 = 0
      · rw [if_pos hpj]
        exact h3 j hj0 hjlen hpj
      · rw [if_neg hpj]
        exact hA j hj0 hjlen (by omega) hpj

theorem pickChild_min {heap : List Entry} {endpos pos : Nat}
    (h : 2 * pos + 1 < endpos) (j : Nat) (hj : j < endpos)
    (hpj : (j - 1) / 2 = pos) (hj0 : 0 < j) :
    (heapGet heap (pickChild heap endpos pos)).1 ≤ (heapGet heap j).1 := by
  have hjc : j = 2 * pos + 1 ∨ j = 2 * pos + 2 := by omega
  unfold pickChild
  split
  · rename_i hr
    rcases hjc with rfl | rfl
    · have h2 : ¬ ((heapGet heap (2 * pos + 1)).1
          < (heapGet heap (2 * pos + 2)).1) := by
        simpa [entryLt] using hr.2
      omega
    · exact Nat.le_refl _
  · rename_i hr
    rcases hjc with rfl | rfl
    · exact Nat.le_refl _
    · have hB : entryLt (heapGet heap (2 * pos + 1))
          (heapGet heap (2 * pos + 2)) = true := by
        by_contra hB
        exact hr ⟨hj, hB⟩
      have h2 : (heapGet heap (2 * pos + 1)).1
          < (heapGet heap (2 * pos + 2)).1 := by
        simpa [entryLt] using hB
      omega

/-- Moving the hole down along minimal children preserves the two partial
ordering invariants and parks the hole at a position with no children. -/
theorem siftupLoop_almost {endpos : Nat} :
    ∀ {fuel : Nat} {heap : List Entry} {pos : Nat},
    pos < heap.length → endpos = heap.length → endpos ≤ fuel + pos →
    AlmostInv heap pos → GrandInv heap pos →
    AlmostInv (siftupLoop fuel heap endpos pos).1
        (siftupLoop fuel heap endpos pos).2
      ∧ GrandInv (siftupLoop fuel heap endpos pos).1
        (siftupLoop fuel heap endpos pos).2
      ∧ endpos ≤ 2 * (siftupLoop fuel heap endpos pos).2 + 1 := by
  intro fuel
  induction fuel with
  | zero =>
    intro heap pos hpos hend hfuel hA hG
    rw [siftupLoop]
    exact ⟨hA, hG, by omega⟩
  | succ fuel ih =>
    intro heap pos hpos hend hfuel hA hG
    rw [siftupLoop]
    split
    · rename_i hcp
      have hc1 : (pickChild heap endpos pos - 1) / 2 = pos := by
        unfold pickChild
        split <;> omega
      have hclt : pickChild heap endpos pos < endpos := pickChild_lt hcp
      have hcgt : pos < pickChild heap endpos pos := pickChild_gt
      have hclen : pickChild heap endpos pos < heap.length := by omega
      have hlen2 : (heap.set pos (heapGet heap
          (pickChild heap endpos pos))).length = heap.length :=
        List.length_set ..
      refine ih ?_ ?_ ?_ ?_ ?_
      · rw [hlen2]; exact hclen
      · rw [hlen2]; exact hend
      · omega
      · intro j hj0 hjlen hjne hjp
        rw [hlen2] at hjlen
        rw [heapGet_set _ _ hpos, heapGet_set _ _ hpos]
        by_cases hj : j = pos
        · rw [if_pos hj, if_neg (show ¬ (j - 1) / 2 = pos by omega), hj]
          exact hG _ (by omega) hclen hc1 (by omega)
        · rw [if_neg hj]
          by_cases hpj : (j - 1) / 2 = pos
          · rw [if_pos hpj]
            exact pickChild_min hcp j (by omega) hpj hj0
          · rw [if_neg hpj]
            exact hA j hj0 hjlen hj hpj
      · intro j hj0 hjlen hjp hcpos
        rw [hlen2] at hjlen
        rw [heapGet_set _ _ hpos, heapGet_set _ _ hpos,
          if_pos hc1, if_neg (show ¬ j = pos by omega)]
        have h5 := hA j hj0 hjlen (by omega) (by omega)
        rw [hjp] at h5
        exact h5
    · exact ⟨hA, hG, by omega⟩

theorem heappush_heapInv {heap : List Entry} (hinv : HeapInv heap)
    (item : Entry) : HeapInv (heappush heap item) := by
  unfold heappush _siftdown
  have hget : heapGet (heap ++ [item]) heap.length = item := by
    unfold heapGet
    simp [List.getElem?_append_right (Nat.le_refl _)]
  rw [hget]
  apply siftdownLoop_heapInv (by simp) (Nat.le_refl _)
  · intro j hj0 hjlen hjne hjp
    rw [List.length_append, List.length_singleton] at hjlen
    have hjlt : j < heap.length := by omega
    rw [heapGet_append _ hjlt, heapGet_append _ (by omega)]
    exact hinv j hj0 hjlt
  · intro j hj0 hjlen hjp hp0
    rw [List.length_append, List.length_singleton] at hjlen
    omega
  · intro j hj0 hjlen hjp
    rw [List.length_append, List.length_singleton] at hjlen
    omega

/-- heapq._siftup restores the full heap ordering when the hole starts at
the root with both partial invariants. -/
theorem siftup_heapInv {heap0 : List Entry} (h0 : 0 < heap0.length)
    (hA : AlmostInv heap0 0) (hG : GrandInv heap0 0) :
    HeapInv (_siftup heap0 0) := by
  obtain ⟨hA1, hG1, hend1⟩ :=
    @siftupLoop_almost heap0.length heap0.length heap0 0 h0 rfl
      (by omega) hA hG
  have hr1len : (siftupLoop heap0.length heap0 heap0.length 0).1.length
      = heap0.length := siftupLoop_length
  have hr2lt : (siftupLoop heap0.length heap0 heap0.length 0).2
      < heap0.length := siftupLoop_pos_lt h0
  unfold _siftup _siftdown
  apply siftdownLoop_heapInv
    (by rw [List.length_set, hr1len]; exact hr2lt) (Nat.le_refl _)
  · intro j hj0 hjlen hjne hjp
    rw [List.length_set, hr1len] at hjlen
    rw [heapGet_set _ _ (by rw [hr1len]; exact hr2lt),
      heapGet_set _ _ (by rw [hr1len]; exact hr2lt),
      if_neg hjp, if_neg hjne]
    exact hA1 j hj0 (by rw [hr1len]; exact hjlen) hjne hjp
  · intro j hj0 hjlen hjp hp0
    rw [List.length_set, hr1len] at hjlen
    omega
  · intro j hj0 hjlen hjp
    rw [List.length_set, hr1len] at hjlen
    omega

theorem heappop_heapInv {heap h' : List Entry} {e : Entry}
    (hinv : HeapInv heap) (h : heappop heap = some (e, h')) :
    HeapInv h' ∧ ∀ x ∈ h', e.1 ≤ x.1 := by
  unfold heappop at h
  split at h
  · exact Option.noConfusion h
  · rename_i lastelt hl
    split at h
    · rename_i hemp
      obtain ⟨h1, h2⟩ := Prod.mk.injEq .. ▸ Option.some_inj.mp h
      subst h1; subst h2
      have hd : heap.dropLast = [] := by simpa using hemp
      rw [hd]
      constructor
      · intro j hj0 hjlen
        simp at hjlen
      · intro x hx
        simp at hx
    · rename_i hemp
      obtain ⟨h1, h2⟩ := Prod.mk.injEq .. ▸ Option.some_inj.mp h
      subst h1; subst h2
      have hne0 : 0 < heap.dropLast.length := by
        cases hd : heap.dropLast with
        | nil => rw [hd] at hemp; simp at hemp
        | cons a as => simp [hd]
      have hbaselen : (heap.dropLast.set 0 lastelt).length
          = heap.dropLast.length := List.length_set ..
      have hA0 : AlmostInv (heap.dropLast.set 0 lastelt) 0 := by
        intro j hj0 hjlen hjne hjp
        rw [hbaselen] at hjlen
        rw [heapGet_set _ _ hne0, heapGet_set _ _ hne0,
          if_neg hjp, if_neg hjne, heapGet_dropLast hjlen,
          heapGet_dropLast (by omega)]
        exact hinv j hj0 (by rw [List.length_dropLast] at hjlen; omega)
      have hG0 : GrandInv (heap.dropLast.set 0 lastelt) 0 := by
        intro j hj0 hjlen hjp hp0
        omega
      constructor
      · exact siftup_heapInv (by rw [hbaselen]; exact hne0) hA0 hG0
      · intro x hx
        have hxb := mem_siftup (by rw [List.length_set]; exact hne0) hx
        have hxh : x ∈ heap := by
          rcases List.mem_or_eq_of_mem_set hxb with hm | rfl
          · exact List.dropLast_subset heap hm
          · exact List.mem_of_getLast?_eq_some hl
        rw [heapGet_dropLast hne0]
        exact heapInv_root_min hinv hxh

/-! # Optimality of the minimum-depth-first disciplines (toward C3) -/

theorem mem_insort {x s : State} : ∀ {l : List State},
    x ∈ insort s l ↔ x = s ∨ x ∈ l := by
  intro l
  induction l with
  | nil => simp [insort]
  | cons t ts ih =>
    rw [insort]
    split
    · constructor
      · intro hx
        rcases List.mem_cons.mp hx with rfl | hx
        · exact Or.inl rfl
        · exact Or.inr hx
      · rintro (rfl | hx)
        · exact List.mem_cons_self _ _
        · exact List.mem_cons_of_mem _ hx
    · constructor
      · intro hx
        rcases List.mem_cons.mp hx with rfl | hx
        · exact Or.inr (List.mem_cons_self _ _)
        · rcases ih.mp hx with rfl | hx
          · exact Or.inl rfl
          · exact Or.inr (List.mem_cons_of_mem _ hx)
      · rintro (rfl | hx)
        · exact List.mem_cons_of_mem _ (ih.mpr (Or.inl rfl))
        · rcases List.mem_cons.mp hx with rfl | hx
          · exact List.mem_cons_self _ _
          · exact List.mem_cons_of_mem _ (ih.mpr (Or.inr hx))

theorem apply_action_label {s : State} {a : String} {s' : State}
    (h : apply_action s a = some s') :
    a ∈ (["Up;", "Left;", "Down;", "Right;"] : List String) := by
  unfold apply_action at h
  split_ifs at h with h1 h2 h3 h4
  · simp [h1]
  · simp [h2]
  · simp [h3]
  · simp [h4]

/-- One guarded insertion, described for a frontier discipline whose `fadd`
adds exactly the given node (up to multiset membership) and preserves the
depth-indexed frontier invariant FI on depth-(d+1) nodes. -/
theorem addIfNew_step {F : Type} {fadd : Node → F → F}
    (elems : F → List Node) (FI : Nat → F → Prop)
    (hadd : ∀ d f n, FI d f → n.num_parents = d + 1 →
      (FI d (fadd n f)
        ∧ ∀ m, m ∈ elems (fadd n f) ↔ m ∈ elems f ∨ m = n))
    {cur : Node} {f : F} {closed : List State} {succ : Option State}
    {a : String} (hFI : FI cur.num_parents f)
    (hsucc : apply_action cur.state a = succ) :
    FI cur.num_parents (open_set_add_if_new fadd closed cur f succ a)
    ∧ (∀ m ∈ elems (open_set_add_if_new fadd closed cur f succ a),
        m ∈ elems f ∨ ∃ s', apply_action cur.state a = some s'
          ∧ m = Node.child s' cur a)
    ∧ (∀ m ∈ elems f,
        m ∈ elems (open_set_add_if_new fadd closed cur f succ a))
    ∧ (∀ s', apply_action cur.state a = some s' →
        s' ∈ closed ∨ Node.child s' cur a
          ∈ elems (open_set_add_if_new fadd closed cur f succ a)) := by
  unfold open_set_add_if_new
  split
  · rename_i hguard
    cases succ with
    | none => simp [_state_is_valid] at hguard
    | some s' =>
      simp only [Option.getD_some]
      have hch : (Node.child s' cur a).num_parents
          = cur.num_parents + 1 := rfl
      obtain ⟨hFI2, hmem⟩ := hadd _ _ _ hFI hch
      refine ⟨hFI2, ?_, ?_, ?_⟩
      · intro m hm
        rcases (hmem m).mp hm with hm | rfl
        · exact Or.inl hm
        · exact Or.inr ⟨s', hsucc, rfl⟩
      · intro m hm
        exact (hmem m).mpr (Or.inl hm)
      · intro s2 hs2
        rw [hsucc] at hs2
        obtain rfl : s' = s2 := Option.some_inj.mp hs2
        exact Or.inr ((hmem _).mpr (Or.inr rfl))
  · rename_i hguard
    refine ⟨hFI, fun m hm => Or.inl hm, fun m hm => hm, ?_⟩
    intro s2 hs2
    left
    rw [hsucc] at hs2
    subst hs2
    simpa [_state_is_valid] using hguard

/-- The four guarded insertions of one expansion: the invariant survives,
the frontier grows only by children of the expanded node, keeps everything
it had, and every successor is either already closed or in the frontier
afterwards. -/
theorem addSuccessors_step {F : Type} {fadd : Node → F → F}
    (elems : F → List Node) (FI : Nat → F → Prop)
    (hadd : ∀ d f n, FI d f → n.num_parents = d + 1 →
      (FI d (fadd n f)
        ∧ ∀ m, m ∈ elems (fadd n f) ↔ m ∈ elems f ∨ m = n))
    {cur : Node} {f : F} {closed : List State}
    (hFI : FI cur.num_parents f) :
    FI cur.num_parents (addSuccessors fadd closed cur f)
    ∧ (∀ m ∈ elems (addSuccessors fadd closed cur f),
        m ∈ elems f ∨ ∃ a s', apply_action cur.state a = some s'
          ∧ m = Node.child s' cur a)
    ∧ (∀ m ∈ elems f, m ∈ elems (addSuccessors fadd closed cur f))
    ∧ (∀ a s', apply_action cur.state a = some s' →
        s' ∈ closed ∨ Node.child s' cur a
          ∈ elems (addSuccessors fadd closed cur f)) := by
  obtain ⟨hF1, hB1, hC1, hD1⟩ :=
    addIfNew_step elems FI hadd hFI (apply_action_up cur.state)
  obtain ⟨hF2, hB2, hC2, hD2⟩ :=
    addIfNew_step elems FI hadd hF1 (apply_action_left cur.state)
  obtain ⟨hF3, hB3, hC3, hD3⟩ :=
    addIfNew_step elems FI hadd hF2 (apply_action_down cur.state)
  obtain ⟨hF4, hB4, hC4, hD4⟩ :=
    addIfNew_step elems FI hadd hF3 (apply_action_right cur.state)
  unfold addSuccessors
  refine ⟨hF4, ?_, ?_, ?_⟩
  · intro m hm
    rcases hB4 m hm with hm | ⟨s', hs', rfl⟩
    · rcases hB3 m hm with hm | ⟨s', hs', rfl⟩
      · rcases hB2 m hm with hm | ⟨s', hs', rfl⟩
        · rcases hB1 m hm with hm | ⟨s', hs', rfl⟩
          · exact Or.inl hm
          · exact Or.inr ⟨"Up;", s', hs', rfl⟩
        · exact Or.inr ⟨"Left;", s', hs', rfl⟩
      · exact Or.inr ⟨"Down;", s', hs', rfl⟩
    · exact Or.inr ⟨"Right;", s', hs', rfl⟩
  · intro m hm
    exact hC4 _ (hC3 _ (hC2 _ (hC1 _ hm)))
  · intro a s' hs'
    have ha := apply_action_label hs'
    have ha4 : a = "Up;" ∨ a = "Left;" ∨ a = "Down;" ∨ a = "Right;" := by
      simpa using ha
    rcases ha4 with rfl | rfl | rfl | rfl
    · rcases hD1 s' hs' with hcl | hin
      · exact Or.inl hcl
      · exact Or.inr (hC4 _ (hC3 _ (hC2 _ hin)))
    · rcases hD2 s' hs' with hcl | hin
      · exact Or.inl hcl
      · exact Or.inr (hC4 _ (hC3 _ hin))
    · rcases hD3 s' hs' with hcl | hin
      · exact Or.inl hcl
      · exact Or.inr (hC4 _ hin)
    · rcases hD4 s' hs' with hcl | hin
      · exact Or.inl hcl
      · exact Or.inr hin

/-- Chase a solving action sequence forward through the closure property of
the ghost expansion trace until it is caught by the frontier: each caught
prefix state either sits in the trace with depth at most its index, or some
frontier node reaches it at depth at most its index. -/
theorem catch_chain {g : State} (gC : List (State × Nat))
    (FrontierOK : Node → Prop)
    (hgoalfree : ∀ se ∈ gC, se.1 ≠ g)
    (hclosure : ∀ se ∈ gC, ∀ (a : String) (s' : State),
      apply_action se.1 a = some s' →
      (∃ e', (s', e') ∈ gC ∧ e' ≤ se.2 + 1)
      ∨ (∃ n : Node, FrontierOK n ∧ n.state = s'
          ∧ n.num_parents ≤ se.2 + 1)) :
    ∀ (acts2 : List String) (s : State) (k : Nat),
      replay s acts2 = some g →
      ((∃ e, (s, e) ∈ gC ∧ e ≤ k)
        ∨ (∃ n : Node, FrontierOK n ∧ n.state = s ∧ n.num_parents ≤ k)) →
      ∃ m : Node, FrontierOK m ∧ m.num_parents ≤ k + acts2.length := by
  intro acts2
  induction acts2 with
  | nil =>
    intro s k hrep hc
    have hs : s = g := Option.some_inj.mp hrep
    rcases hc with ⟨e, hin, _⟩ | ⟨n, hn, hst, hk⟩
    · exact absurd hs (hgoalfree (s, e) hin)
    · exact ⟨n, hn, by simpa using hk⟩
  | cons a rest ih =>
    intro s k hrep hc
    rw [replay] at hrep
    cases happ : apply_action s a with
    | none => rw [happ] at hrep; exact Option.noConfusion hrep
    | some s1 =>
      rw [happ] at hrep
      rcases hc with ⟨e, hin, he⟩ | ⟨n, hn, hst, hk⟩
      · rcases hclosure (s, e) hin a s1 happ with ⟨e', hin', he'⟩
          | ⟨n, hn, hst, hnk⟩
        · obtain ⟨m, hm, hmk⟩ := ih s1 (k + 1) hrep
            (Or.inl ⟨e', hin', by omega⟩)
          exact ⟨m, hm, by simp only [List.length_cons]; omega⟩
        · obtain ⟨m, hm, hmk⟩ := ih s1 (k + 1) hrep
            (Or.inr ⟨n, hn, hst, by omega⟩)
          exact ⟨m, hm, by simp only [List.length_cons]; omega⟩
      · exact ⟨n, hn, by simp only [List.length_cons]; omega⟩

/-- Partial optimality of the generic loop for every frontier discipline
that always hands back a node of minimum depth: a returned action list is
no longer than any action list replaying from the initial state to the
goal.  `elems` views the frontier as a list of nodes; `FI` is the
discipline's invariant, indexed by the depth of the node being expanded;
`gC` is the ghost trace of expanded states with their expansion depths. -/
theorem searchLoop_min {F : Type} {fget : F → Option (Node × F)}
    {fadd : Node → F → F} {i g : State}
    (elems : F → List Node) (FI : Nat → F → Prop)
    (hadd : ∀ d f n, FI d f → n.num_parents = d + 1 →
      (FI d (fadd n f)
        ∧ ∀ m, m ∈ elems (fadd n f) ↔ m ∈ elems f ∨ m = n))
    (hpop : ∀ d f n f', FI d f → fget f = some (n, f') →
      (n ∈ elems f
        ∧ (∀ m ∈ elems f', m ∈ elems f)
        ∧ (∀ m ∈ elems f, m ∈ elems f' ∨ m = n)
        ∧ (∀ m ∈ elems f', n.num_parents ≤ m.num_parents)
        ∧ d ≤ n.num_parents ∧ FI n.num_parents f')) :
    ∀ (fuel : Nat) (cur : Node) (closed cl : List State) (f : F)
      (gC : List (State × Nat)) (acts : List String),
      NodeOK i cur → (∀ n ∈ elems f, NodeOK i n) →
      FI cur.num_parents f →
      (∀ m ∈ elems f, cur.num_parents ≤ m.num_parents) →
      (∀ se ∈ gC, se.2 ≤ cur.num_parents) →
      (∀ s : State, s ∈ closed ↔ ∃ e, (s, e) ∈ gC) →
      (∀ se ∈ gC, se.1 ≠ g) →
      (∀ se ∈ gC, ∀ (a : String) (s' : State),
        apply_action se.1 a = some s' →
        (∃ e', (s', e') ∈ gC ∧ e' ≤ se.2 + 1)
        ∨ (∃ n : Node, (n ∈ elems f ∨ n = cur) ∧ n.state = s'
            ∧ n.num_parents ≤ se.2 + 1)) →
      ((i, 0) ∈ gC
        ∨ (∃ n : Node, (n ∈ elems f ∨ n = cur) ∧ n.state = i
            ∧ n.num_parents = 0)) →
      searchLoop fget fadd g fuel cur closed f = some (cl, some acts) →
      ∀ acts2 : List String, replay i acts2 = some g →
      acts.length ≤ acts2.length := by
  intro fuel
  induction fuel with
  | zero =>
    intro cur closed cl f gC acts _ _ _ _ _ _ _ _ _ h
    exact Option.noConfusion h
  | succ fuel ih =>
    intro cur closed cl f gC acts hcur hall hFI hmin hgCd hcl hgf hclosure
      hroot h acts2 hrep2
    rw [searchLoop] at h
    by_cases hgoal : cur.state = g
    · rw [if_pos hgoal] at h
      have hpair := Option.some_inj.mp h
      have hacts : acts = reconstruct_actions cur := by
        have := congrArg Prod.snd hpair
        simpa using this.symm
      subst hacts
      rw [hcur.2.2]
      have hc0 : (∃ e, (i, e) ∈ gC ∧ e ≤ 0)
          ∨ (∃ n : Node, (n ∈ elems f ∨ n = cur) ∧ n.state = i
              ∧ n.num_parents ≤ 0) := by
        rcases hroot with hgc | ⟨n, hn, hst, hnp⟩
        · exact Or.inl ⟨0, hgc, Nat.le_refl 0⟩
        · exact Or.inr ⟨n, hn, hst, by omega⟩
      obtain ⟨m, hmF, hmk⟩ := catch_chain gC
        (fun n => n ∈ elems f ∨ n = cur) hgf hclosure acts2 i 0 hrep2 hc0
      rcases hmF with hmf | rfl
      · exact Nat.le_trans (hmin m hmf) (by omega)
      · omega
    · rw [if_neg hgoal] at h
      obtain ⟨hF4, hB4, hC4, hD4⟩ :=
        @addSuccessors_step F fadd elems FI hadd cur f
          (insort cur.state closed) hFI
      have hall4 : ∀ m ∈ elems (addSuccessors fadd
          (insort cur.state closed) cur f), NodeOK i m := by
        intro m hm
        rcases hB4 m hm with hm | ⟨a, s', hs', rfl⟩
        · exact hall m hm
        · exact nodeOK_child hcur (apply_action_label hs') hs'
      cases hfg : fget (addSuccessors fadd (insort cur.state closed) cur f)
        with
      | none =>
        rw [hfg] at h
        have := congrArg Prod.snd (Option.some_inj.mp h)
        simp at this
      | some r =>
        obtain ⟨n, f'⟩ := r
        rw [hfg] at h
        obtain ⟨hnmem, hsub, hcov, hminf, hdmono, hFI'⟩ :=
          hpop _ _ _ _ hF4 hfg
        have hall' : ∀ m ∈ elems f', NodeOK i m :=
          fun m hm => hall4 m (hsub m hm)
        have hgCd' : ∀ se ∈ gC ++ [(cur.state, cur.num_parents)],
            se.2 ≤ n.num_parents := by
          intro se hse
          rcases List.mem_append.mp hse with hse | hse
          · exact Nat.le_trans (hgCd se hse) hdmono
          · simp at hse
            rw [hse]
            exact hdmono
        have hcl' : ∀ s : State, s ∈ insort cur.state closed ↔
            ∃ e, (s, e) ∈ gC ++ [(cur.state, cur.num_parents)] := by
          intro s
          rw [mem_insort]
          constructor
          · rintro (rfl | hs)
            · exact ⟨cur.num_parents,
                List.mem_append.mpr (Or.inr (by simp))⟩
            · obtain ⟨e, he⟩ := (hcl s).mp hs
              exact ⟨e, List.mem_append.mpr (Or.inl he)⟩
          · rintro ⟨e, he⟩
            rcases List.mem_append.mp he with he | he
            · exact Or.inr ((hcl s).mpr ⟨e, he⟩)
            · simp at he
              exact Or.inl he.1
        have hgf' : ∀ se ∈ gC ++ [(cur.state, cur.num_parents)],
            se.1 ≠ g := by
          intro se hse
          rcases List.mem_append.mp hse with hse | hse
          · exact hgf se hse
          · simp at hse
            rw [hse]
            exact hgoal
        have hclosure' : ∀ se ∈ gC ++ [(cur.state, cur.num_parents)],
            ∀ (a : String) (s' : State), apply_action se.1 a = some s' →
            (∃ e', (s', e') ∈ gC ++ [(cur.state, cur.num_parents)]
                ∧ e' ≤ se.2 + 1)
            ∨ (∃ m : Node, (m ∈ elems f' ∨ m = n) ∧ m.state = s'
                ∧ m.num_parents ≤ se.2 + 1) := by
          intro se hse a s' happ
          rcases List.mem_append.mp hse with hse | hse
          · rcases hclosure se hse a s' happ with ⟨e', he', hle⟩
              | ⟨m, hm, hst, hnp⟩
            · exact Or.inl ⟨e', List.mem_append.mpr (Or.inl he'), hle⟩
            · rcases hm with hm | hmeq
              · rcases hcov m (hC4 m hm) with hm' | hm'
                · exact Or.inr ⟨m, Or.inl hm', hst, hnp⟩
                · exact Or.inr ⟨m, Or.inr hm', hst, hnp⟩
              · rw [hmeq] at hst hnp
                exact Or.inl ⟨cur.num_parents,
                  List.mem_append.mpr (Or.inr (by simp [hst])), by omega⟩
          · simp at hse
            have hse1 : se.1 = cur.state := by rw [hse]
            have hse2 : se.2 = cur.num_parents := by rw [hse]
            rw [hse1] at happ
            rw [hse2]
            rcases hD4 a s' happ with hcl4 | hin4
            · rcases mem_insort.mp hcl4 with rfl | hs'cl
              · exact Or.inl ⟨cur.num_parents,
                  List.mem_append.mpr (Or.inr (by simp)), by omega⟩
              · obtain ⟨e, he⟩ := (hcl s').mp hs'cl
                have hbound := hgCd (s', e) he
                exact Or.inl ⟨e, List.mem_append.mpr (Or.inl he),
                  by omega⟩
            · rcases hcov _ hin4 with hm' | heq
              · exact Or.inr ⟨Node.child s' cur a, Or.inl hm', rfl,
                  by simp [Node.num_parents]⟩
              · exact Or.inr ⟨Node.child s' cur a, Or.inr heq, rfl,
                  by simp [Node.num_parents]⟩
        have hroot' : (i, 0) ∈ gC ++ [(cur.state, cur.num_parents)]
            ∨ (∃ m : Node, (m ∈ elems f' ∨ m = n) ∧ m.state = i
                ∧ m.num_parents = 0) := by
          rcases hroot with hgc | ⟨m, hm, hst, hnp⟩
          · exact Or.inl (List.mem_append.mpr (Or.inl hgc))
          · rcases hm with hm | hmeq
            · rcases hcov m (hC4 m hm) with hm' | hm'
              · exact Or.inr ⟨m, Or.inl hm', hst, hnp⟩
              · exact Or.inr ⟨m, Or.inr hm', hst, hnp⟩
            · left
              refine List.mem_append.mpr (Or.inr ?_)
              rw [hmeq] at hst hnp
              simp [hst, hnp]
        exact ih n (insort cur.state closed) cl f'
          (gC ++ [(cur.state, cur.num_parents)]) acts
          (hall4 n hnmem) hall' hFI' hminf hgCd' hcl' hgf' hclosure'
          hroot' h acts2 hrep2

/-! ## Breadth-first: the deque pops a minimum-depth node -/

/-- The BFS frontier invariant at expansion depth d: all queued depths lie
in the band [d, d+1] and run nondecreasing along the queue. -/
def BfsInv (d : Nat) (l : List Node) : Prop :=
  (∀ m ∈ l, d ≤ m.num_parents ∧ m.num_parents ≤ d + 1)
  ∧ List.Pairwise (fun a b => a.num_parents ≤ b.num_parents) l

theorem bfs_add (d : Nat) (f : List Node) (n : Node) (hFI : BfsInv d f)
    (hn : n.num_parents = d + 1) :
    BfsInv d (listAppend n f)
    ∧ ∀ m, m ∈ listAppend n f ↔ m ∈ f ∨ m = n := by
  obtain ⟨hrange, hsort⟩ := hFI
  refine ⟨⟨?_, ?_⟩, ?_⟩
  · intro m hm
    rcases List.mem_append.mp hm with hm | hm
    · exact hrange m hm
    · simp at hm
      subst hm
      omega
  · apply List.pairwise_append.mpr
    refine ⟨hsort, List.pairwise_singleton .., ?_⟩
    intro a ha b hb
    simp at hb
    subst hb
    have := hrange a ha
    omega
  · intro m
    simp [listAppend]

theorem bfs_pop (d : Nat) (f : List Node) (n : Node) (f' : List Node)
    (hFI : BfsInv d f) (hg : dequePopLeft f = some (n, f')) :
    n ∈ f ∧ (∀ m ∈ f', m ∈ f) ∧ (∀ m ∈ f, m ∈ f' ∨ m = n)
    ∧ (∀ m ∈ f', n.num_parents ≤ m.num_parents)
    ∧ d ≤ n.num_parents ∧ BfsInv n.num_parents f' := by
  obtain ⟨hrange, hsort⟩ := hFI
  unfold dequePopLeft at hg
  cases f with
  | nil => exact Option.noConfusion hg
  | cons x xs =>
    cases hg
    have hhead := List.pairwise_cons.mp hsort
    refine ⟨List.mem_cons_self _ _,
      fun m hm => List.mem_cons_of_mem _ hm, ?_, hhead.1,
      (hrange n (List.mem_cons_self _ _)).1, ?_, hhead.2⟩
    · intro m hm
      rcases List.mem_cons.mp hm with rfl | hm
      · exact Or.inr rfl
      · exact Or.inl hm
    · intro m hm
      have h1 := hhead.1 m hm
      have h2 := hrange m (List.mem_cons_of_mem _ hm)
      have h3 := hrange n (List.mem_cons_self _ _)
      omega

/-! ## Dijkstra: the heap pops a minimum-depth node -/

/-- The Dijkstra frontier invariant at expansion depth d: the entry list is
heap-ordered, every priority equals its node's depth, and no priority lies
below d. -/
def DijInv (d : Nat) (h : List Entry) : Prop :=
  HeapInv h ∧ (∀ e ∈ h, e.1 = e.2.num_parents) ∧ (∀ e ∈ h, d ≤ e.1)

theorem dij_add (pr : Node → Nat) (hprn : ∀ n, pr n = n.num_parents)
    (d : Nat) (h : List Entry) (n : Node) (hFI : DijInv d h)
    (hn : n.num_parents = d + 1) :
    DijInv d (pqAddWith pr n h)
    ∧ ∀ m, m ∈ (pqAddWith pr n h).map Prod.snd
      ↔ m ∈ h.map Prod.snd ∨ m = n := by
  obtain ⟨hheap, hpr, hlow⟩ := hFI
  have hperm := perm_heappush h (pr n, n)
  refine ⟨⟨heappush_heapInv hheap _, ?_, ?_⟩, ?_⟩
  · intro e he
    rcases List.mem_cons.mp (hperm.mem_iff.mp he) with rfl | he
    · exact hprn n
    · exact hpr e he
  · intro e he
    rcases List.mem_cons.mp (hperm.mem_iff.mp he) with rfl | he
    · show d ≤ pr n
      rw [hprn n]
      omega
    · exact hlow e he
  · intro m
    constructor
    · intro hm
      obtain ⟨e, he, rfl⟩ := List.mem_map.mp hm
      rcases List.mem_cons.mp (hperm.mem_iff.mp he) with rfl | he
      · exact Or.inr rfl
      · exact Or.inl (List.mem_map.mpr ⟨e, he, rfl⟩)
    · rintro (hm | hmn)
      · obtain ⟨e, he, rfl⟩ := List.mem_map.mp hm
        exact List.mem_map.mpr
          ⟨e, hperm.mem_iff.mpr (List.mem_cons_of_mem _ he), rfl⟩
      · rw [hmn]
        exact List.mem_map.mpr ⟨(pr n, n),
          hperm.mem_iff.mpr (List.mem_cons_self _ _), rfl⟩

theorem dij_pop (d : Nat) (h : List Entry) (n : Node) (h' : List Entry)
    (hFI : DijInv d h) (hg : pqGet h = some (n, h')) :
    n ∈ h.map Prod.snd ∧ (∀ m ∈ h'.map Prod.snd, m ∈ h.map Prod.snd)
    ∧ (∀ m ∈ h.map Prod.snd, m ∈ h'.map Prod.snd ∨ m = n)
    ∧ (∀ m ∈ h'.map Prod.snd, n.num_parents ≤ m.num_parents)
    ∧ d ≤ n.num_parents ∧ DijInv n.num_parents h' := by
  obtain ⟨hheap, hpr, hlow⟩ := hFI
  unfold pqGet at hg
  cases hp : heappop h with
  | none => rw [hp] at hg; exact Option.noConfusion hg
  | some r =>
    obtain ⟨e, h2⟩ := r
    rw [hp] at hg
    simp only [Option.map_some'] at hg
    obtain ⟨hg1, hg2⟩ := Prod.mk.injEq .. ▸ Option.some_inj.mp hg
    subst hg1; subst hg2
    have hperm := perm_heappop hp
    obtain ⟨hinv', hmin'⟩ := heappop_heapInv hheap hp
    have hein : e ∈ h := hperm.mem_iff.mpr (List.mem_cons_self _ _)
    have hsubm : ∀ x ∈ h2, x ∈ h := fun x hx =>
      hperm.mem_iff.mpr (List.mem_cons_of_mem _ hx)
    have hepr : e.1 = e.2.num_parents := hpr e hein
    refine ⟨List.mem_map.mpr ⟨e, hein, rfl⟩, ?_, ?_, ?_, ?_, hinv', ?_, ?_⟩
    · intro m hm
      obtain ⟨em, hem, rfl⟩ := List.mem_map.mp hm
      exact List.mem_map.mpr ⟨em, hsubm em hem, rfl⟩
    · intro m hm
      obtain ⟨em, hem, rfl⟩ := List.mem_map.mp hm
      rcases List.mem_cons.mp (hperm.mem_iff.mp hem) with rfl | hem
      · exact Or.inr rfl
      · exact Or.inl (List.mem_map.mpr ⟨em, hem, rfl⟩)
    · intro m hm
      obtain ⟨em, hem, rfl⟩ := List.mem_map.mp hm
      have h1 := hmin' em hem
      have h2 := hpr em (hsubm em hem)
      omega
    · have := hlow e hein
      omega
    · intro x hx
      exact hpr x (hsubm x hx)
    · intro x hx
      have h1 := hmin' x hx
      omega

/-- breadth_first returns a shortest action list whenever it returns one:
the deque discipline pops nodes in nondecreasing depth order. -/
theorem breadth_first_min {i g : State} {fuel c : Nat} {acts : List String}
    (h : breadth_first i g fuel = some (c, some acts))
    {acts2 : List String} (hrep : replay i acts2 = some g) :
    acts.length ≤ acts2.length := by
  unfold breadth_first at h
  obtain ⟨cl, hsl⟩ := _search_some h
  exact searchLoop_min (fun l => l) BfsInv bfs_add bfs_pop fuel
    (Node.root i) [] cl [] [] acts (nodeOK_root i)
    (by intro m hm; simp at hm)
    ⟨by intro m hm; simp at hm, List.Pairwise.nil⟩
    (by intro m hm; simp at hm)
    (by intro se hse; simp at hse)
    (by intro s; simp)
    (by intro se hse; simp at hse)
    (by intro se hse; simp at hse)
    (Or.inr ⟨Node.root i, Or.inr rfl, rfl, rfl⟩) hsl acts2 hrep

/-- dijkstra returns a shortest action list whenever it returns one: with
the all-zero heuristic every entry's priority is its node's depth, and the
verified heapq pops a minimum-priority entry. -/
theorem dijkstra_min {i g : State} {fuel c : Nat} {acts : List String}
    (h : dijkstra i g fuel = some (c, some acts))
    {acts2 : List String} (hrep : replay i acts2 = some g) :
    acts.length ≤ acts2.length := by
  unfold dijkstra a_star at h
  obtain ⟨cl, hsl⟩ := _search_some h
  exact searchLoop_min (fun l => l.map Prod.snd) DijInv
    (dij_add (fun n => n.num_parents + (fun _ _ : State => 0) n.state g)
      (fun m => rfl))
    dij_pop fuel (Node.root i) [] cl [] [] acts (nodeOK_root i)
    (by intro m hm; simp at hm)
    ⟨by intro j hj0 hjlen; simp at hjlen, by intro e he; simp at he,
      by intro e he; simp at he⟩
    (by intro m hm; simp at hm)
    (by intro se hse; simp at hse)
    (by intro s; simp)
    (by intro se hse; simp at hse)
    (by intro se hse; simp at hse)
    (Or.inr ⟨Node.root i, Or.inr rfl, rfl, rfl⟩) hsl acts2 hrep

/-- C3 (amended): breadth_first and dijkstra return an action sequence of
minimum length whenever they return one: any action list that replays from
initial_state to goal_state with the Move Generator is at least as long as
the returned one.  The a_star third of the original claim is false: the
default manhattan_distance heuristic scores the blank and is inadmissible,
and a_star can return a longer-than-minimum sequence (see the
counterexample, 17 moves where 15 suffice). -/
theorem claim_C3 (st : Strategy)
    (hst : st = Strategy.BFS ∨ st = Strategy.DIJ) (i g : State)
    (fuel c : Nat) (acts acts2 : List String)
    (hrun : run_strategy st i g fuel = some (c, some acts))
    (hrep : replay i acts2 = some g) :
    acts.length ≤ acts2.length := by
  rcases hst with rfl | rfl
  · exact breadth_first_min hrun hrep
  · exact dijkstra_min hrun hrep

/-- C3 witness: a concrete breadth-first run returns a 2-move sequence, and
any solving sequence — here the reverse of the returned one — is at least
as long. -/
theorem claim_C3_witness :
    (Strategy.BFS = Strategy.BFS ∨ Strategy.BFS = Strategy.DIJ)
    ∧ run_strategy Strategy.BFS [["0", "2"], ["1", "3"]]
        [["1", "2"], ["3", "0"]] 100 = some (4, some ["Down;", "Right;"])
    ∧ replay [["0", "2"], ["1", "3"]] ["Right;", "Down;"]
        = some [["1", "2"], ["3", "0"]]
    ∧ (["Down;", "Right;"] : List String).length
      ≤ (["Right;", "Down;"] : List String).length :=
  ⟨Or.inl rfl, by rfl, by rfl,
    claim_C3 Strategy.BFS (Or.inl rfl) [["0", "2"], ["1", "3"]]
      [["1", "2"], ["3", "0"]] 100 4 ["Down;", "Right;"]
      ["Right;", "Down;"] (by rfl) (by rfl)⟩
